import Mathlib

/-!
# iTAP: pulse decoding, pilot scanning and block boundaries

A shallow embedding of the core of `itap.c`: the pulse classifiers, `get_pulse`,
`readbyte`, `fixendtape`, the header length codec, and the three loops of `main`
that scan for pilot tones, build `array_blocks` and filter out small blocks.

Conventions of the embedding
* a byte is a `Nat` below 256; a cast to `unsigned char` is written `% 256`;
* `unsigned int` arithmetic is written with an explicit `% U32`;
* a `FILE *` is the list of the file's bytes, a cursor and the end-of-file flag;
* `EOF` returned by `get_pulse` is `none`;
* a C array is a function from indices to values, written with `setAt`.
-/

set_option autoImplicit false
set_option linter.unusedVariables false

namespace ITap

/-! ## Machine integers -/

/-- Number of values of an `unsigned int`. -/
def U32 : Nat := 4294967296

/-- Conversion of an `int` to `unsigned int`, as C does in a mixed comparison. -/
def toU32 (x : Int) : Nat := (x % 4294967296).toNat

/-- Difference `a - b` of two `unsigned int` values. -/
def subU32 (a b : Nat) : Nat := (a + U32 - b % U32) % U32

/-- Store into an array cell: `a[k] = v`. -/
def setAt (a : Nat → Nat) (k v : Nat) : Nat → Nat :=
  fun j => if j = k then v else a j

/-! ## Pulse classification (`ispilot`, `islong`, `ismedium`, `isshort`) -/

/-- Source `ispilot`: 1 when `40 < byte < 60`. -/
def ispilot (byte : Nat) : Nat :=
  if 40 < byte ∧ byte < 60 then 1 else 0

/-- Source `islong`: 0x56 when `0x4a ≤ pulse ≤ 0x64`. -/
def islong (pulse : Nat) : Nat :=
  if 0x4a ≤ pulse ∧ pulse ≤ 0x64 then 0x56 else 0

/-- Source `ismedium`: 0x42 when `0x37 ≤ pulse ≤ 0x49`. -/
def ismedium (pulse : Nat) : Nat :=
  if 0x37 ≤ pulse ∧ pulse ≤ 0x49 then 0x42 else 0

/-- Source `isshort`: 0x30 when `0x24 ≤ pulse ≤ 0x36`. -/
def isshort (pulse : Nat) : Nat :=
  if 0x24 ≤ pulse ∧ pulse ≤ 0x36 then 0x30 else 0

/-! ## Files and `get_pulse` -/

/-- An open input file: its bytes, the read cursor and the end-of-file flag. -/
structure FILE where
  data : List Nat
  pos : Nat
  eof : Bool
deriving DecidableEq, Repr

/-- The call `fread(&data, 1, 1, f)`: the byte read, if any, and the file after it. -/
def fread1 (f : FILE) : Option Nat × FILE :=
  match f.data[f.pos]? with
  | some d => (some d, { f with pos := f.pos + 1 })
  | none => (none, { f with eof := true })

/-- The call `fread(size, 3, 1, f)`: the three bytes when all are there; a short
read consumes what is left and sets the end-of-file flag. -/
def fread3 (f : FILE) : Option (Nat × Nat × Nat) × FILE :=
  match f.data[f.pos]?, f.data[f.pos + 1]?, f.data[f.pos + 2]? with
  | some s0, some s1, some s2 => (some (s0, s1, s2), { f with pos := f.pos + 3 })
  | _, _, _ => (none, { f with pos := max f.pos f.data.length, eof := true })

/-- Source `get_pulse`; `none` is `EOF`. The `verbose` branch only prints. -/
def get_pulse (tap_version : Nat) (f : FILE) : Option Nat × FILE :=
  match fread1 f with
  | (none, f1) => (none, f1)
  | (some data, f1) =>
    if data = 0 then
      if tap_version = 0 then (some 0x100, f1)
      else
        match fread3 f1 with
        | (none, f2) => (none, f2)
        | (some (s0, s1, s2), f2) =>
          (some (((s2 <<< 16) ||| (s1 <<< 8) ||| s0) >>> 3), f2)
    else (some data, f1)

/-! ## `readbyte` -/

/-- The sync search loop of `readbyte`, `while (!syncfound)`: the first argument
bounds the number of iterations, `none` means the bound was too small. The
result is `syncfound` and the file; `impulse`, `impulseprev` and `i` are
overwritten before their next use. -/
def syncLoop (tap_version : Nat) : Nat → FILE → Nat → Option (Bool × FILE)
  | 0, _, _ => none
  | fuel + 1, f, impulseprev =>
    match get_pulse tap_version f with
    | (none, f1) => some (false, f1)
    | (some cgot, f1) =>
      let impulse := cgot % 256
      if islong impulseprev ≠ 0 ∧ ismedium impulse ≠ 0 then some (true, f1)
      else syncLoop tap_version fuel f1 impulse

/-- The bit loop of `readbyte`, `for (times=0;(times<8)&&(i<end);times++)`; the
first argument is `8 - times`. The result is `byte` and the file. -/
def bitLoop (tap_version end_ : Nat) : Nat → Nat → Nat → Nat → FILE → Nat × FILE
  | 0, _, byte, _, f => (byte, f)
  | n + 1, i, byte, bit, f =>
    if i < end_ then
      match get_pulse tap_version f with
      | (none, f1) => (byte, f1)
      | (some c1, f1) =>
        let impulseprev := c1 % 256
        match get_pulse tap_version f1 with
        | (none, f2) => (byte, f2)
        | (some c2, f2) =>
          let impulse := c2 % 256
          let bit0 :=
            if isshort impulseprev ≠ 0 ∧ (ismedium impulse ≠ 0 ∨ islong impulse ≠ 0)
            then 0 else bit
          let bit1 :=
            if (ismedium impulseprev ≠ 0 ∨ islong impulseprev ≠ 0) ∧ isshort impulse ≠ 0
            then 128 else bit0
          bitLoop tap_version end_ n ((i + 2) % U32) ((byte >>> 1) ||| bit1) bit1 f2
    else (byte, f)

/-- Source `readbyte`: the byte returned and the file afterwards. The sync loop
runs at most once per remaining byte, which is the bound given to `syncLoop`. -/
def readbyte (tap_version : Nat) (f : FILE) (start end_ : Nat) : Option (Nat × FILE) :=
  match get_pulse tap_version f with
  | (none, f1) => some (0, f1)
  | (some cgot, f1) =>
    match syncLoop tap_version (f1.data.length - f1.pos + 1) f1 (cgot % 256) with
    | none => none
    | some (false, f2) => some (0, f2)
    | some (true, f2) =>
      match bitLoop tap_version end_ 8 0 0 0 f2 with
      | (byte, f3) =>
        match get_pulse tap_version f3 with
        | (none, f4) => some (0, f4)
        | (some _, f4) =>
          match get_pulse tap_version f4 with
          | (none, f5) => some (0, f5)
          | (some _, f5) => some (byte, f5)

/-! ## `fixendtape` -/

/-- Read of `b[i]` for an `int` index: `none` outside the buffer. -/
def readAt (b : List Nat) (i : Int) : Option Nat :=
  if 0 ≤ i then b[i.toNat]? else none

/-- The loop `for( ;i>e;i--)` of `fixendtape`; the first argument is the number
of iterations left, `i - e`. The result is the new `*len`, or `none` when the
loop reads outside the buffer. -/
def fixendtapeLoop (b : List Nat) (len : Int) : Nat → Int → Option Int
  | 0, _ => some len
  | n + 1, i =>
    match readAt b i with
    | none => none
    | some x =>
      if isshort x ≠ 0 then fixendtapeLoop b len n (i - 1)
      else if x = 0 then some (i + 4)
      else fixendtapeLoop b len n (i - 1)

/-- Source `fixendtape`: the buffer and the new `*len`; `none` when a read falls
outside the buffer. The buffer is never written. -/
def fixendtape (b : List Nat) (len : Int) : Option (List Nat × Int) :=
  let l := len
  let e := l - 0x4000
  let i := l - 4
  match readAt b i with
  | none => none
  | some x =>
    if x ≠ 0 then (fixendtapeLoop b len (i - e).toNat i).map (fun n => (b, n))
    else some (b, len)

/-! ## Header length field -/

/-- The four bytes `save`, `create_cleaned_tap` and the size correction of `main`
write at offsets 16..19 for a length `len`. -/
def encodeLen (len : Nat) : List Nat :=
  [len &&& 0xff, (len >>> 8) &&& 0xff, (len >>> 16) &&& 0xff, (len >>> 24) &&& 0xff]

/-- The header reader of `main`: `data_len=(l0<<24)+(l1<<16)+(l2<<8)+l3` for the
bytes `l3 l2 l1 l0` read in this order from offset 16. -/
def decodeLen (l3 l2 l1 l0 : Nat) : Nat :=
  ((l0 <<< 24) + (l1 <<< 16) + (l2 <<< 8) + l3) % U32

/-- The header reader of `main` applied to a whole file. -/
def readLen (file : List Nat) : Nat :=
  decodeLen (file.getD 16 0) (file.getD 17 0) (file.getD 18 0) (file.getD 19 0)

/-- The size correction of `main`: `fs = filesize - 20` is written over the
bytes 16..19 of the file. -/
def fixHeader (file : List Nat) : List Nat :=
  let fs := subU32 file.length 20
  file.take 16 ++ encodeLen fs ++ file.drop 20

/-! ## `main`: pilot scan, block boundaries, filtering -/

/-- One entry of `array_pilot`. -/
structure record_pilot where
  start : Nat
  end_ : Nat
deriving DecidableEq, Repr

/-- The variables of the pilot scan of `main`. `array_pilot` holds the entries
written so far, so `pilot_tones` is its length. -/
structure ScanState where
  ok : Nat
  count : Nat
  start : Nat
  pos_current : Nat
  array_pilot : List record_pilot
deriving DecidableEq, Repr

/-- State before the scan: `count=0; ok=0; pilot_tones=0; start=0; pos_current=20`. -/
def scanInit : ScanState :=
  { ok := 0, count := 0, start := 0, pos_current := 20, array_pilot := [] }

/-- Body of the scan loop of `main` for one value `i` returned by `getc`. -/
def scanStep (hdrminsize : Int) (st : ScanState) (i : Nat) : ScanState :=
  let byte := i % 256
  if ispilot byte ≠ 0 then
    if st.ok = 0 then
      { st with ok := 1, count := 1, start := st.pos_current,
                pos_current := (st.pos_current + 1) % U32 }
    else
      { st with count := (st.count + 1) % U32,
                pos_current := (st.pos_current + 1) % U32 }
  else
    if st.ok ≠ 0 then
      { st with ok := 0, count := 0,
                array_pilot :=
                  if toU32 hdrminsize < st.count then
                    st.array_pilot ++ [{ start := st.start, end_ := subU32 st.pos_current 1 }]
                  else st.array_pilot,
                pos_current := (st.pos_current + 1) % U32 }
    else
      { st with pos_current := (st.pos_current + 1) % U32 }

/-- The scan loop of `main` over the payload, the bytes from file offset 20 to
the end of the file. -/
def scan (hdrminsize : Int) (payload : List Nat) : ScanState :=
  payload.foldl (scanStep hdrminsize) scanInit

/-- The variables of the boundary code of `main`. -/
structure BlockState where
  array_blocks : Nat → Nat
  nblocks : Int
  pilot_tones : Int
  i : Int

/-- The array `array_blocks` after `memset`: its 100 cells are zero; `mem` is
what the memory after the array holds, read when an index passes the end. -/
def blocksInit (mem : Nat → Nat) : Nat → Nat :=
  fun k => if k < 100 then 0 else mem k % U32

/-- The loop `for (i=1;i<=pilot_tones;i++) array_blocks[i]=array_pilot[i-1].start`,
over the entries of `array_pilot` from index `i-1` on. -/
def buildLoop : List record_pilot → Nat → (Nat → Nat) → (Nat → Nat)
  | [], _, a => a
  | r :: rs, i, a => buildLoop rs (i + 1) (setAt a i r.start)

/-- The boundary building code of `main`, up to `array_blocks[0]+=20`. -/
def buildBlocks (mem : Nat → Nat) (array_pilot : List record_pilot) (data_len : Nat) :
    BlockState :=
  let pilot_tones := array_pilot.length
  let a0 := setAt (blocksInit mem) 0 0
  let a1 := buildLoop array_pilot 1 a0
  let i := pilot_tones + 1
  let a2 := setAt a1 i ((data_len + 20) % U32)
  let a3 := setAt a2 0 ((a2 0 + 20) % U32)
  { array_blocks := a3, nblocks := pilot_tones + 1, pilot_tones := pilot_tones, i := i }

/-- The loop `for (chr2=i+1;chr2<=nblocks;chr2++) array_blocks[chr2]=array_blocks[chr2+1]`;
the first argument is the number of iterations left, `nblocks - chr2 + 1`.
`chr2` is an `unsigned char`; it stays below 256 while `nblocks` is within the
100 cells of the array. -/
def shiftLoop : Nat → Nat → (Nat → Nat) → (Nat → Nat)
  | 0, _, a => a
  | n + 1, chr2, a => shiftLoop n (chr2 + 1) (setAt a chr2 (a (chr2 + 1)))

/-- Body of the filtering loop of `main`, followed by its `i++`. -/
def filterStep (blockminsize : Int) (s : BlockState) : BlockState :=
  if subU32 (s.array_blocks (s.i + 1).toNat) (s.array_blocks s.i.toNat) < toU32 blockminsize then
    { array_blocks := shiftLoop (s.nblocks - s.i).toNat (s.i + 1).toNat s.array_blocks,
      nblocks := s.nblocks - 1,
      pilot_tones := s.pilot_tones - 1,
      i := s.i - 1 + 1 }
  else
    { s with i := s.i + 1 }

/-- The filtering loop of `main`, `for(i=0;i<=nblocks;i++)`, entered with `i`
already set: the first argument bounds the number of iterations and `none`
means that the bound was too small. -/
def filterLoop (blockminsize : Int) : Nat → BlockState → Option BlockState
  | 0, _ => none
  | fuel + 1, s =>
    if s.i ≤ s.nblocks then filterLoop blockminsize fuel (filterStep blockminsize s)
    else some s

/-- The part of `main` from the pilot scan to the end of the filtering loop, for
a container with the given payload whose length field is right (`main` has
made it so), run with at most `fuel` iterations of the filtering loop. -/
def mainBlocks (mem : Nat → Nat) (hdrminsize blockminsize : Int) (payload : List Nat)
    (fuel : Nat) : Option BlockState :=
  let st := scan hdrminsize payload
  let data_len := payload.length % U32
  let s := buildBlocks mem st.array_pilot data_len
  filterLoop blockminsize fuel { s with i := 0 }

/-- The boundaries `array_blocks[0..nblocks]` as a list. -/
def boundaries (s : BlockState) : List Nat :=
  (List.range (s.nblocks + 1).toNat).map s.array_blocks

/-! ## `readbyte`: the pulses it reads -/

/-- The file after `k` calls of `get_pulse`. -/
def skipPulses (tap_version : Nat) : Nat → FILE → FILE
  | 0, f => f
  | k + 1, f => skipPulses tap_version k (get_pulse tap_version f).2

/-- The pulse `p(k)` that the call number `k` of `get_pulse` returns, counted
from 0 at the cursor of `f`; `none` is `EOF`. -/
def nthPulse (tap_version k : Nat) (f : FILE) : Option Nat :=
  (get_pulse tap_version (skipPulses tap_version k f)).1

/-- The part of `readbyte` after the sync search, from `// Read 8 bits` to the
end: the bit loop and the two trailing pulses. -/
def readbyteTail (tap_version end_ : Nat) (f2 : FILE) : Nat × FILE :=
  match bitLoop tap_version end_ 8 0 0 0 f2 with
  | (byte, f3) =>
    match get_pulse tap_version f3 with
    | (none, f4) => (0, f4)
    | (some _, f4) =>
      match get_pulse tap_version f4 with
      | (none, f5) => (0, f5)
      | (some _, f5) => (byte, f5)

/-- The pulse pairs that the bit loop of `readbyte` reads, in order, as
`get_pulse` returns them (before the cast to `unsigned char`): the loop of
`bitLoop`, keeping the pairs. -/
def bitLoopPairs (tap_version end_ : Nat) : Nat → Nat → FILE → List (Nat × Nat)
  | 0, _, _ => []
  | n + 1, i, f =>
    if i < end_ then
      match get_pulse tap_version f with
      | (none, _) => []
      | (some c1, f1) =>
        match get_pulse tap_version f1 with
        | (none, _) => []
        | (some c2, f2) =>
          (c1, c2) :: bitLoopPairs tap_version end_ n ((i + 2) % U32) f2
    else []

/-- The values of `bit` that the bit loop of `readbyte` shifts into `byte`, pair
by pair: the loop of `bitLoop`, keeping the value of `bit` at `byte=byte|bit`. -/
def bitLoopBits (tap_version end_ : Nat) : Nat → Nat → Nat → FILE → List Nat
  | 0, _, _, _ => []
  | n + 1, i, bit, f =>
    if i < end_ then
      match get_pulse tap_version f with
      | (none, _) => []
      | (some c1, f1) =>
        let impulseprev := c1 % 256
        match get_pulse tap_version f1 with
        | (none, _) => []
        | (some c2, f2) =>
          let impulse := c2 % 256
          let bit0 :=
            if isshort impulseprev ≠ 0 ∧ (ismedium impulse ≠ 0 ∨ islong impulse ≠ 0)
            then 0 else bit
          let bit1 :=
            if (ismedium impulseprev ≠ 0 ∨ islong impulseprev ≠ 0) ∧ isshort impulse ≠ 0
            then 128 else bit0
          bit1 :: bitLoopBits tap_version end_ n ((i + 2) % U32) bit1 f2
    else []

/-! ## `GetPrgName` -/

/-- Source `isHdr`: 1 for the header marker 0x89. -/
def isHdr (byte : Nat) : Nat :=
  if byte = 0x89 then 1 else 0

/-- The call `fseek(f, offset, SEEK_SET)`: it moves the cursor and clears the
end-of-file flag. -/
def fseek (f : FILE) (offset : Nat) : FILE :=
  { f with pos := offset, eof := false }

/-- The header search loop of `GetPrgName`,
`while ( !isHdr(byte[0]) && !feof(file_inp) ) byte[0]=readbyte(...)`: the first
argument bounds the number of iterations, `none` means the bound was too small.
The result is `byte[0]` and the file. -/
def hdrSearch (tap_version start end_ : Nat) : Nat → Nat → FILE → Option (Nat × FILE)
  | 0, _, _ => none
  | fuel + 1, byte0, f =>
    if isHdr byte0 = 0 ∧ f.eof = false then
      match readbyte tap_version f start end_ with
      | none => none
      | some (b, f1) => hdrSearch tap_version start end_ fuel b f1
    else some (byte0, f)

/-- The loop `for(i=1;i<14 && !feof(file_inp);i++) byte[i]=readbyte(...)`; the
first argument is `14 - i`. The bytes are only printed, the file is the result. -/
def readHeaderBytes (tap_version start end_ : Nat) : Nat → FILE → Option FILE
  | 0, f => some f
  | n + 1, f =>
    if f.eof = false then
      match readbyte tap_version f start end_ with
      | none => none
      | some (_, f1) => readHeaderBytes tap_version start end_ n f1
    else some f

/-- The cleaning of one name byte in `GetPrgName`: control characters become
an underscore, characters from 0xa0 to 0xfe lose their high bit. -/
def cleanNameByte (c : Nat) : Nat :=
  if 0 < c ∧ c < 0x20 then 0x5f
  else if 0xa0 ≤ c ∧ c < 0xff then c &&& 0x7f
  else c

/-- The loop `for(i=0;i<16 && !feof(file_inp);i++)` of `GetPrgName` that reads
the name; the first argument is `16 - i`. -/
def readName (tap_version start end_ : Nat) : Nat → Nat → List Nat → FILE →
    Option (List Nat × FILE)
  | 0, _, name, f => some (name, f)
  | n + 1, i, name, f =>
    if f.eof = false then
      match readbyte tap_version f start end_ with
      | none => none
      | some (b, f1) =>
        readName tap_version start end_ n (i + 1) (name.set i (cleanNameByte b)) f1
    else some (name, f)

/-- Length of the C string in a buffer: the bytes before the first NUL. -/
def strlen (s : List Nat) : Nat :=
  (s.takeWhile (fun c => c ≠ 0)).length

/-- The call `strcpy(dst, src)`: the string in `src` and its NUL go to the
start of `dst`. -/
def strcpy (dst src : List Nat) : List Nat :=
  src.take (strlen src + 1) ++ dst.drop (strlen src + 1)

/-- The loop `for(i=15; (i>=0) && (blockname[i]) && (blockname[i]==0x20) ;i--)`
that removes trailing spaces; the first argument is `i + 1`. -/
def trimSpaces : Nat → List Nat → List Nat
  | 0, blockname => blockname
  | i + 1, blockname =>
    if blockname.getD i 0 ≠ 0 ∧ blockname.getD i 0 = 0x20 then
      trimSpaces i (blockname.set i 0)
    else blockname

/-- The replacement of one character in the loop
`// Replace invalid filename characters`. -/
def replaceChar (c : Nat) : Nat :=
  if c ∈ [0x2a, 0x3c, 0x3e, 0x3f, 0x3a, 0x7c, 0x5e] then 0x5f
  else if c ∈ [0x2c, 0x5c, 0x2f] then 0x2e
  else if c = 0x22 then 0x27
  else if 0x7f < c then 0x5f
  else c

/-- The loop `for(i=0;blockname[i];i++)` that replaces characters; the first
argument bounds the iterations by the size of the buffer. -/
def replaceLoop : Nat → Nat → List Nat → List Nat
  | 0, _, blockname => blockname
  | n + 1, i, blockname =>
    if blockname.getD i 0 ≠ 0 then
      replaceLoop n (i + 1) (blockname.set i (replaceChar (blockname.getD i 0)))
    else blockname

/-- The loop that computes `is_empty`; the first argument bounds the iterations
by the size of the buffer. -/
def isEmptyLoop : Nat → Nat → List Nat → Nat
  | 0, _, _ => 1
  | n + 1, i, blockname =>
    if blockname.getD i 0 ≠ 0 then
      if blockname.getD i 0 ≠ 0x20 ∧ blockname.getD i 0 ≠ 0x5f ∧ blockname.getD i 0 ≠ 0
      then 0
      else isEmptyLoop n (i + 1) blockname
    else 1

/-- The string `"NO-NAME"` with its NUL. -/
def noName : List Nat := [0x4e, 0x4f, 0x2d, 0x4e, 0x41, 0x4d, 0x45, 0]

/-- The end of `GetPrgName`, from `name[16]=0` on: the stored name for the
buffer `name` that was read. -/
def storeName (blockname name : List Nat) : List Nat :=
  let name1 := name.set 16 0
  let b1 := strcpy blockname name1
  let b2 := trimSpaces 16 b1
  let b3 := replaceLoop b2.length 0 b2
  let is_empty := isEmptyLoop b3.length 0 b3
  if is_empty ≠ 0 ∨ b3.getD 0 0 = 0 then strcpy b3 noName else b3

/-- Source `GetPrgName`: the buffer `blockname` (20 bytes) and the file after
the call; `fuel` bounds the header search, `none` means it was too small. -/
def GetPrgName (tap_version start end_ : Nat) (f : FILE) (blockname : List Nat)
    (fuel : Nat) : Option (List Nat × FILE) :=
  let name : List Nat := List.replicate 20 0
  match hdrSearch tap_version start end_ fuel 0 (fseek f start) with
  | none => none
  | some (_, f1) =>
    if f1.eof = true then some (blockname, f1)
    else
      match readHeaderBytes tap_version start end_ 13 f1 with
      | none => none
      | some f2 =>
        match readName tap_version start end_ 16 0 name f2 with
        | none => none
        | some (name1, f3) => some (storeName blockname name1, f3)

/-- The C string stored in a buffer. -/
def cstr (s : List Nat) : List Nat :=
  s.takeWhile (fun c => c ≠ 0)

/-- The file `g` is the file `f` after some reads: the same bytes, the cursor
not before where it was and not past the end of the data, the end-of-file flag
kept, and newly set only with the cursor at the end of the data. -/
def FileStep (f g : FILE) : Prop :=
  g.data = f.data ∧ f.pos ≤ g.pos ∧ g.pos ≤ max f.pos f.data.length ∧
  (f.eof = true → g.eof = true) ∧ (g.eof = true → f.eof = true ∨ f.data.length ≤ g.pos)

/-- The 20 header bytes of a version 1 container with 14000 bytes of payload:
the signature `C64-TAPE-RAW`, the version, three zero bytes and the length. -/
def tapHeader14000 : List Nat :=
  [0x43, 0x36, 0x34, 0x2d, 0x54, 0x41, 0x50, 0x45, 0x2d, 0x52, 0x41, 0x57, 1, 0, 0, 0,
   0xb0, 0x36, 0, 0]

/-- Sync pattern at index `j` of the pulses read from the cursor of `f`: the
pulse length `p(j-1)` is Long (0x4a to 0x64) and the pulse length `p(j)` is
Medium (0x37 to 0x49). -/
def SyncAt (tap_version : Nat) (f : FILE) (j : Nat) : Prop :=
  ∃ a b, nthPulse tap_version (j - 1) f = some a ∧ nthPulse tap_version j f = some b ∧
    islong a ≠ 0 ∧ ismedium b ≠ 0

/-! ## Streams with an extended pulse -/

/-- A version 1 stream: Short, the extended pulse 330 (bytes 0, 0x50, 0x0a, 0),
Medium, eight pairs of Short and Medium pulses that encode 138, two trailing
pulses and one more byte. -/
def extendedSyncStream : List Nat :=
  [0x30, 0, 0x50, 0x0a, 0, 0x40,
   0x30, 0x40, 0x40, 0x30, 0x30, 0x40, 0x40, 0x30,
   0x30, 0x40, 0x30, 0x40, 0x30, 0x40, 0x40, 0x30,
   0x30, 0x30, 0x30]

/-- A version 1 stream: Long, Medium, then the pair of the extended pulse 330
(bytes 0, 0x50, 0x0a, 0) and a Short pulse, seven pairs (Short, Medium) and two
trailing pulses. -/
def extendedPairStream : List Nat :=
  [0x50, 0x40, 0, 0x50, 0x0a, 0, 0x30,
   0x30, 0x40, 0x30, 0x40, 0x30, 0x40, 0x30, 0x40,
   0x30, 0x40, 0x30, 0x40, 0x30, 0x40,
   0x30, 0x30]

/-- A version 0 stream: Long, Medium, then the pair of a zero byte (the pulse
256) and a Short pulse, seven pairs (Short, Medium) and two trailing pulses. -/
def zeroPairStream : List Nat :=
  [0x50, 0x40, 0, 0x30,
   0x30, 0x40, 0x30, 0x40, 0x30, 0x40, 0x30, 0x40,
   0x30, 0x40, 0x30, 0x40, 0x30, 0x40,
   0x30, 0x30]

/-! ## `fixendtape`: the indices it reads -/

/-- The indices `i` of the reads `b[i]` in the loop of `fixendtape`, in order,
up to the first read outside the buffer: the loop of `fixendtapeLoop`, keeping
the indices. -/
def fixendtapeLoopReads (b : List Nat) : Nat → Int → List Int
  | 0, _ => []
  | n + 1, i =>
    match readAt b i with
    | none => [i]
    | some x =>
      if isshort x ≠ 0 then i :: fixendtapeLoopReads b n (i - 1)
      else if x = 0 then [i]
      else i :: fixendtapeLoopReads b n (i - 1)

/-- The indices `i` of the reads `b[i]` of `fixendtape`, in order, up to the
first read outside the buffer. -/
def fixendtapeReads (b : List Nat) (len : Int) : List Int :=
  let l := len
  let e := l - 0x4000
  let i := l - 4
  match readAt b i with
  | none => [i]
  | some x =>
    if x ≠ 0 then i :: fixendtapeLoopReads b (i - e).toNat i
    else [i]

/-! ## Vocabulary of the claims about `readbyte` -/

/-- A pair of pulses encodes the bit `β`: (Short, Medium-or-Long) for 0 and
(Medium-or-Long, Short) for 1. -/
def pairEncodes (β : Bool) (p : Nat × Nat) : Prop :=
  if β then (ismedium p.1 ≠ 0 ∨ islong p.1 ≠ 0) ∧ isshort p.2 ≠ 0
  else isshort p.1 ≠ 0 ∧ (ismedium p.2 ≠ 0 ∨ islong p.2 ≠ 0)

instance (β : Bool) (p : Nat × Nat) : Decidable (pairEncodes β p) := by
  unfold pairEncodes
  infer_instance

/-- The bytes of a list of pulse pairs, in stream order. -/
def pulsesOf : List (Nat × Nat) → List Nat
  | [] => []
  | p :: ps => p.1 :: p.2 :: pulsesOf ps

/-- The pairs encode the bits of `v`, least significant bit first. -/
def encodesLsb : Nat → List (Nat × Nat) → Prop
  | _, [] => True
  | v, p :: ps => pairEncodes (v.testBit 0) p ∧ encodesLsb (v / 2) ps

/-- The accumulator of `readbyte` after `n` pairs that encode the low bits of
`v`: each pair shifts the byte right and puts its bit at the top. -/
def accBits : Nat → Nat → Nat → Nat
  | 0, _, byte => byte
  | n + 1, v, byte => accBits n (v / 2) (byte / 2 + 128 * (v % 2))

/-! ## Vocabulary of the claims about `main` -/

/-- The payload has a pilot byte at index `j` (file offset `j + 20`). -/
def pilotAt (payload : List Nat) (j : Nat) : Prop :=
  ∃ x, payload[j]? = some x ∧ ispilot (x % 256) ≠ 0

/-- File offset `s` starts a maximal run of `n` consecutive pilot bytes: the
`n` bytes from `s` on are pilot bytes, the byte before `s`, if any, and the byte
after the run, if any, are not. -/
def MaximalPilotRun (payload : List Nat) (s n : Nat) : Prop :=
  20 ≤ s ∧ 0 < n ∧ (∀ j, j < n → pilotAt payload (s - 20 + j)) ∧
  (21 ≤ s → ¬ pilotAt payload (s - 21)) ∧ ¬ pilotAt payload (s - 20 + n)

/-- What the filtering loop of `main` keeps true of its variables, for a
property `G` of the boundaries built before the loop: the cells
`array_blocks[0..nblocks]` satisfy `G`, are below 2^32 and do not decrease,
`array_blocks[0]` is 20, and no segment before `i` failed the size test. -/
structure FilterInv (blockminsize : Int) (G : Nat → Prop) (s : BlockState) : Prop where
  i_nonneg : 0 ≤ s.i
  i_le : s.i ≤ s.nblocks + 1
  good : ∀ k : Nat, (k : Int) ≤ s.nblocks → G (s.array_blocks k)
  bound : ∀ k : Nat, (k : Int) ≤ s.nblocks → s.array_blocks k < U32
  mono : ∀ j k : Nat, j ≤ k → (k : Int) ≤ s.nblocks → s.array_blocks j ≤ s.array_blocks k
  first : 0 ≤ s.nblocks → s.array_blocks 0 = 20
  sized : ∀ j : Nat, (j : Int) < s.i → (j : Int) < s.nblocks →
    ¬ (subU32 (s.array_blocks (j + 1)) (s.array_blocks j) < toU32 blockminsize)

/-- What the scan loop of `main` keeps true after `k` bytes of the payload:
where the cursor is, what an open run looks like, and that every entry of
`array_pilot` is the start of a maximal run of more than `hdrminsize` pilot
bytes that ended before byte `k`; the entries are in increasing order. -/
structure ScanInv (hdrminsize : Int) (payload : List Nat) (k : Nat) (st : ScanState) :
    Prop where
  pos : st.pos_current = 20 + k
  okrun : st.ok ≠ 0 → 1 ≤ st.count ∧ st.start + st.count = 20 + k ∧ 20 ≤ st.start ∧
    (∀ j, j < st.count → pilotAt payload (st.start - 20 + j)) ∧
    (21 ≤ st.start → ¬ pilotAt payload (st.start - 21)) ∧
    (∀ r ∈ st.array_pilot, r.start < st.start)
  idle : st.ok = 0 → 1 ≤ k → ¬ pilotAt payload (k - 1)
  recs : ∀ r ∈ st.array_pilot, ∃ n, toU32 hdrminsize < n ∧
    MaximalPilotRun payload r.start n ∧ r.start + n < 20 + k ∧ r.end_ + 1 = r.start + n
  sorted : st.array_pilot.Pairwise (fun r1 r2 => r1.start < r2.start)

/-! ## Arithmetic helpers -/

theorem shift_or_eq_sum (s0 s1 s2 : Nat) (h0 : s0 < 256) (h1 : s1 < 256) :
    ((s2 <<< 16) ||| (s1 <<< 8) ||| s0) = s0 + 256 * s1 + 65536 * s2 := by
  have e1 : (s2 <<< 16) ||| (s1 <<< 8) = 2 ^ 8 * (2 ^ 8 * s2 + s1) := by
    have h := Nat.mul_add_lt_is_or (i := 16) (b := 2 ^ 8 * s1) (by omega) s2
    rw [Nat.shiftLeft_eq, Nat.shiftLeft_eq, Nat.mul_comm s2, Nat.mul_comm s1, ← h]
    ring
  rw [e1, ← Nat.mul_add_lt_is_or (by omega : s0 < 2 ^ 8)]
  ring

theorem and_ff (x : Nat) : x &&& 0xff = x % 256 :=
  Nat.and_pow_two_sub_one_eq_mod x 8

theorem decode_encode (len : Nat) (h : len < U32) :
    decodeLen (len &&& 0xff) ((len >>> 8) &&& 0xff) ((len >>> 16) &&& 0xff)
      ((len >>> 24) &&& 0xff) = len := by
  unfold decodeLen U32 at *
  simp only [and_ff, Nat.shiftRight_eq_div_pow, Nat.shiftLeft_eq]
  omega

theorem readLen_append (hdr rest : List Nat) (a b c d : Nat) (hhdr : hdr.length = 16) :
    readLen (hdr ++ [a, b, c, d] ++ rest) = decodeLen a b c d := by
  have e : ∀ k, k < 4 → (hdr ++ [a, b, c, d] ++ rest)[16 + k]? = [a, b, c, d][k]? := by
    intro k hk
    rw [List.append_assoc, List.getElem?_append_right (by omega), hhdr,
      List.getElem?_append_left (by simpa using hk)]
    congr 1
    omega
  have e0 := e 0 (by omega)
  have e1 := e 1 (by omega)
  have e2 := e 2 (by omega)
  have e3 := e 3 (by omega)
  simp only [Nat.add_zero, Nat.reduceAdd] at e0 e1 e2 e3
  simp only [readLen, List.getD_eq_getElem?_getD, e0, e1, e2, e3]
  rfl

/-! ## Pulse classification -/

/-- C7: `isshort`, `ismedium` and `islong` are non-zero exactly on 0x24..0x36,
0x37..0x49 and 0x4A..0x64; no two of them are non-zero together, and all three
are zero exactly below 0x24 and above 0x64. -/
theorem classify_ranges (p : Nat) :
    (isshort p ≠ 0 ↔ 0x24 ≤ p ∧ p ≤ 0x36) ∧
    (ismedium p ≠ 0 ↔ 0x37 ≤ p ∧ p ≤ 0x49) ∧
    (islong p ≠ 0 ↔ 0x4a ≤ p ∧ p ≤ 0x64) ∧
    ¬ (isshort p ≠ 0 ∧ ismedium p ≠ 0) ∧
    ¬ (isshort p ≠ 0 ∧ islong p ≠ 0) ∧
    ¬ (ismedium p ≠ 0 ∧ islong p ≠ 0) ∧
    ((isshort p = 0 ∧ ismedium p = 0 ∧ islong p = 0) ↔ (p < 0x24 ∨ 0x64 < p)) := by
  unfold isshort ismedium islong
  refine ⟨?_, ?_, ?_, ?_, ?_, ?_, ?_⟩ <;> (repeat split) <;> simp <;> omega

/-! ## `get_pulse` -/

/-- C8: `get_pulse` on a stream of bytes: `EOF` at the end of the data; a
non-zero byte is the pulse and the cursor moves by 1; a zero byte is 256 for
version 0, cursor moving by 1; for a later version it is the 24-bit
little-endian value of the next three bytes shifted right by 3, cursor moving
by 4, and `EOF` when fewer than three bytes follow. -/
theorem get_pulse_spec (tap_version : Nat) (f : FILE) (hb : ∀ b ∈ f.data, b < 256) :
    (f.data.length ≤ f.pos → get_pulse tap_version f = (none, { f with eof := true })) ∧
    (∀ d, f.data[f.pos]? = some d → d ≠ 0 →
      get_pulse tap_version f = (some d, { f with pos := f.pos + 1 })) ∧
    (f.data[f.pos]? = some 0 → tap_version = 0 →
      get_pulse tap_version f = (some 256, { f with pos := f.pos + 1 })) ∧
    (∀ s0 s1 s2, f.data[f.pos]? = some 0 → 1 ≤ tap_version →
      f.data[f.pos + 1]? = some s0 → f.data[f.pos + 2]? = some s1 →
      f.data[f.pos + 3]? = some s2 →
      get_pulse tap_version f =
        (some ((s0 + 256 * s1 + 65536 * s2) >>> 3), { f with pos := f.pos + 4 })) ∧
    (f.data[f.pos]? = some 0 → 1 ≤ tap_version → f.data.length < f.pos + 4 →
      (get_pulse tap_version f).1 = none) := by
  refine ⟨?_, ?_, ?_, ?_, ?_⟩
  · intro h
    have : f.data[f.pos]? = none := List.getElem?_eq_none h
    simp [get_pulse, fread1, this]
  · intro d hd hne
    simp [get_pulse, fread1, hd, hne]
  · intro hd htv
    simp [get_pulse, fread1, hd, htv]
  · intro s0 s1 s2 hd htv h0 h1 h2
    have htv0 : tap_version ≠ 0 := by omega
    have b0 : s0 < 256 := hb s0 (List.getElem?_mem h0)
    have b1 : s1 < 256 := hb s1 (List.getElem?_mem h1)
    simp [get_pulse, fread1, fread3, hd, htv0, h0, h1, h2, shift_or_eq_sum s0 s1 s2 b0 b1]
  · intro hd htv hlen
    have htv0 : tap_version ≠ 0 := by omega
    have : f.data[f.pos + 1 + 2]? = none := List.getElem?_eq_none (by omega)
    simp only [get_pulse, fread1, fread3, hd, htv0]
    simp only [if_true, if_false, this]
    split <;> simp_all

/-- C8 on the stream `0, 8, 1, 0` with version 1: the extended pulse is 33. -/
theorem get_pulse_spec_witness :
    get_pulse 1 ⟨[0, 8, 1, 0], 0, false⟩ = (some 33, ⟨[0, 8, 1, 0], 4, false⟩) :=
  (get_pulse_spec 1 ⟨[0, 8, 1, 0], 0, false⟩ (by decide)).2.2.2.1 8 1 0 rfl (by decide)
    rfl rfl rfl

/-! ## Header length field -/

/-- C9: a length below 2^32 written by the encoders at offsets 16..19 is read
back by the header reader of `main`; after the size correction the length
field read back is the file size minus 20. -/
theorem header_len_roundtrip (len : Nat) (hlen : len < U32) (hdr rest file : List Nat)
    (hhdr : hdr.length = 16) (h20 : 20 ≤ file.length) (hsz : file.length < U32) :
    readLen (hdr ++ encodeLen len ++ rest) = len ∧
    readLen (fixHeader file) = file.length - 20 := by
  constructor
  · rw [encodeLen, readLen_append hdr rest _ _ _ _ hhdr]
    exact decode_encode len hlen
  · have hfs : subU32 file.length 20 = file.length - 20 := by
      unfold subU32 U32 at *
      omega
    have htake : (file.take 16).length = 16 := by
      rw [List.length_take]
      omega
    rw [fixHeader, hfs, encodeLen, readLen_append _ _ _ _ _ _ htake]
    exact decode_encode _ (by omega)

/-- C9 for the length 70000 and for a file of 320 bytes with a wrong length field. -/
theorem header_len_roundtrip_witness :
    readLen (List.replicate 16 7 ++ encodeLen 70000 ++ [1, 2]) = 70000 ∧
    readLen (fixHeader (List.replicate 16 7 ++ [9, 9, 9, 9] ++ List.replicate 300 5)) =
      (List.replicate 16 7 ++ [9, 9, 9, 9] ++ List.replicate 300 5).length - 20 :=
  header_len_roundtrip 70000 (by simp [U32]) (List.replicate 16 7) [1, 2]
    (List.replicate 16 7 ++ [9, 9, 9, 9] ++ List.replicate 300 5) (by simp)
    (by simp only [List.length_append, List.length_replicate, List.length_cons,
      List.length_nil]; omega)
    (by simp only [List.length_append, List.length_replicate, List.length_cons,
      List.length_nil, U32]; omega)

/-! ## `fixendtape` -/

theorem readAt_nat (b : List Nat) (i : Nat) : readAt b (i : Int) = b[i]? := by
  simp [readAt]

theorem isshort_zero : isshort 0 = 0 := by decide

theorem replicate_get_ne (n j x v : Nat) (hv : v ≠ 0)
    (h : (List.replicate n v)[j]? = some x) : x ≠ 0 := by
  have hx := List.eq_of_mem_replicate (List.getElem?_mem h)
  omega

/-- The backward loop stops at a zero byte `b[k]` when every byte above it, up
to the index where the loop starts, is Short. -/
theorem fixendtapeLoop_find (b : List Nat) (len : Int) (k : Nat) (hz : b[k]? = some 0) :
    ∀ (n i : Nat), k ≤ i → i - k < n → i < b.length →
      (∀ j x, k < j → j ≤ i → b[j]? = some x → isshort x ≠ 0) →
      fixendtapeLoop b len n (i : Int) = some ((k : Int) + 4) := by
  intro n
  induction n with
  | zero => intro i _ h; omega
  | succ n ih =>
    intro i hki hn hib hs
    rw [fixendtapeLoop, readAt_nat]
    rcases Nat.eq_or_lt_of_le hki with hik | hik
    · subst hik
      simp [hz, isshort_zero]
    · have hx : b[i]? = some b[i] := List.getElem?_eq_getElem hib
      have hsx := hs i b[i] hik (Nat.le_refl i) hx
      have hcast : (i : Int) - 1 = ((i - 1 : Nat) : Int) := by omega
      simp only [hx, hsx, ne_eq, not_false_eq_true, if_true]
      rw [hcast]
      exact ih (i - 1) (by omega) (by omega) (by omega)
        (fun j x h1 h2 h3 => hs j x h1 (by omega) h3)

/-- The backward loop leaves the length alone when it meets no zero byte and
stays inside the buffer. -/
theorem fixendtapeLoop_nonzero (b : List Nat) (len : Int) :
    ∀ (n : Nat) (i : Int), (n : Int) ≤ i + 1 → i < b.length →
      (∀ (j : Nat) x, i + 1 - n ≤ j → (j : Int) ≤ i → b[j]? = some x → x ≠ 0) →
      fixendtapeLoop b len n i = some len := by
  intro n
  induction n with
  | zero => intro i _ _ _; rfl
  | succ n ih =>
    intro i hn hib hnz
    have hi0 : 0 ≤ i := by omega
    obtain ⟨m, rfl⟩ := Int.eq_ofNat_of_zero_le hi0
    have hmb : m < b.length := by omega
    have hx : b[m]? = some b[m] := List.getElem?_eq_getElem hmb
    have hxne := hnz m b[m] (by omega) (by omega) hx
    have hrec := ih ((m : Int) - 1) (by omega) (by omega)
      (fun j x h1 h2 h3 => hnz j x (by omega) (by omega) h3)
    rw [fixendtapeLoop, readAt_nat]
    simp only [hx, hxne, if_false]
    split <;> exact hrec

/-- C4 as stated fails: the last four bytes of this six-byte buffer are
non-zero, and `fixendtape` cuts its length to 4. -/
theorem fixendtape_last4_counterexample :
    (4 : Int) ≤ 6 ∧ ([0, 5, 5, 5, 5, 5] : List Nat).length = 6 ∧
    (∀ x ∈ ([0, 5, 5, 5, 5, 5] : List Nat).drop 2, x ≠ 0) ∧
    fixendtape [0, 5, 5, 5, 5, 5] 6 = some ([0, 5, 5, 5, 5, 5], 4) ∧
    fixendtape [0, 5, 5, 5, 5, 5] 6 ≠ some ([0, 5, 5, 5, 5, 5], 6) := by
  decide

/-- C4, amended: a buffer of length at least 0x3fff whose last four bytes are
non-zero and which has no zero byte at any index `i` with
`len - 0x4000 < i < len - 4` is returned unmodified, length and contents. -/
theorem fixendtape_unchanged (b : List Nat) (hlen : 0x3fff ≤ b.length)
    (hlast : ∀ (j : Nat) x, b.length ≤ j + 4 → b[j]? = some x → x ≠ 0)
    (hwin : ∀ (j : Nat) x, (b.length : Int) - 0x4000 < j → j + 4 < b.length →
      b[j]? = some x → x ≠ 0) :
    fixendtape b b.length = some (b, (b.length : Int)) := by
  have hi : (b.length : Int) - 4 = ((b.length - 4 : Nat) : Int) := by omega
  have hx : b[b.length - 4]? = some b[b.length - 4] := List.getElem?_eq_getElem (by omega)
  have hxne := hlast (b.length - 4) _ (by omega) hx
  have hloop := fixendtapeLoop_nonzero b b.length 16380 ((b.length : Int) - 4) (by omega)
    (by omega) (fun j x h1 h2 h3 => by
      rcases Nat.lt_or_ge (j + 4) b.length with h | h
      · exact hwin j x (by omega) h h3
      · exact hlast j x h h3)
  have hn : ((b.length : Int) - 4 - ((b.length : Int) - 0x4000)).toNat = 16380 := by omega
  simp only [fixendtape, hn, hloop]
  rw [hi, readAt_nat]
  simp [hx, hxne]

/-- C4, amended, on a buffer of 0x3fff bytes of value 5. -/
theorem fixendtape_unchanged_witness :
    fixendtape (List.replicate 0x3fff 5) ((List.replicate 0x3fff 5).length) =
      some (List.replicate 0x3fff 5, ((List.replicate 0x3fff 5).length : Int)) :=
  fixendtape_unchanged (List.replicate 0x3fff 5)
    (by simp only [List.length_replicate]; omega)
    (fun j x _ h => replicate_get_ne 0x3fff j x 5 (by omega) h)
    (fun j x _ _ h => replicate_get_ne 0x3fff j x 5 (by omega) h)

/-- C5: when `b[k] = 0` for an offset `k` with `len - 0x4000 < k < len - 4` and
every byte `b[j]`, `k < j ≤ len - 4`, is Short, `fixendtape` sets the length to
`k + 4` and leaves the buffer as it is. -/
theorem fixendtape_trim (b : List Nat) (k : Nat)
    (hk1 : (b.length : Int) - 0x4000 < k) (hk2 : k + 4 < b.length)
    (hz : b[k]? = some 0)
    (hs : ∀ j x, k < j → j + 4 ≤ b.length → b[j]? = some x → isshort x ≠ 0) :
    fixendtape b b.length = some (b, (k : Int) + 4) := by
  have hi : (b.length : Int) - 4 = ((b.length - 4 : Nat) : Int) := by omega
  have hx : b[b.length - 4]? = some b[b.length - 4] := List.getElem?_eq_getElem (by omega)
  have hsx := hs (b.length - 4) _ (by omega) (by omega) hx
  have hxne : b[b.length - 4] ≠ 0 := by
    intro h0
    rw [h0] at hsx
    exact hsx isshort_zero
  have hn : ((b.length : Int) - 4 - ((b.length : Int) - 0x4000)).toNat = 16380 := by omega
  have hloop := fixendtapeLoop_find b b.length k hz 16380 (b.length - 4) (by omega)
    (by omega) (by omega) (fun j x h1 h2 h3 => hs j x h1 (by omega) h3)
  simp only [fixendtape, hn]
  rw [hi, readAt_nat, hloop]
  simp [hx, hxne]

/-- C5 on a buffer of seven bytes with a zero byte at offset 1 under two Short bytes. -/
theorem fixendtape_trim_witness :
    fixendtape [7, 0, 0x30, 0x30, 9, 9, 9] ([7, 0, 0x30, 0x30, 9, 9, 9] : List Nat).length =
      some ([7, 0, 0x30, 0x30, 9, 9, 9], ((1 : Nat) : Int) + 4) :=
  fixendtape_trim [7, 0, 0x30, 0x30, 9, 9, 9] 1 (by decide) (by decide) (by decide)
    (fun j x h1 h2 h3 => by
      have hj : j = 2 ∨ j = 3 := by
        simp only [List.length_cons, List.length_nil] at h2
        omega
      rcases hj with rfl | rfl <;> simp at h3 <;> subst h3 <;> decide)

/-! ## `readbyte` -/

theorem drop_cons_get {l t : List Nat} {p a : Nat} (h : l.drop p = a :: t) :
    l[p]? = some a ∧ l.drop (p + 1) = t := by
  constructor
  · have h0 := List.getElem?_drop l p 0
    rw [h] at h0
    simpa using h0.symm
  · have h1 : l.drop (p + 1) = (l.drop p).drop 1 := by rw [List.drop_drop]
    rw [h1, h]
    rfl

theorem get_pulse_nonzero (tap_version : Nat) (f : FILE) (d : Nat)
    (hd : f.data[f.pos]? = some d) (hne : d ≠ 0) :
    get_pulse tap_version f = (some d, { f with pos := f.pos + 1 }) := by
  simp [get_pulse, fread1, hd, hne]

theorem get_pulse_single (tap_version : Nat) (f : FILE) (d : Nat)
    (hd : f.data[f.pos]? = some d) (h : tap_version = 0 ∨ d ≠ 0) :
    ∃ c, get_pulse tap_version f = (some c, { f with pos := f.pos + 1 }) := by
  by_cases hne : d = 0
  · rcases h with h | h
    · exact ⟨0x100, by simp [get_pulse, fread1, hd, hne, h]⟩
    · exact absurd hne h
  · exact ⟨d, get_pulse_nonzero tap_version f d hd hne⟩

theorem pulse_class_byte (p : Nat)
    (h : isshort p ≠ 0 ∨ ismedium p ≠ 0 ∨ islong p ≠ 0) : p ≠ 0 ∧ p % 256 = p := by
  unfold isshort ismedium islong at h
  rcases h with h | h | h <;> split at h <;> omega

theorem short_not_mediumlong (p : Nat) (h : isshort p ≠ 0) :
    ¬ (ismedium p ≠ 0 ∨ islong p ≠ 0) := by
  unfold isshort ismedium islong at *
  split at h
  · intro h2
    rcases h2 with h2 | h2 <;> split at h2 <;> omega
  · exact absurd rfl h

set_option maxRecDepth 100000 in
theorem shift_or_bit : ∀ b, b < 256 → (b >>> 1) ||| 128 = b / 2 + 128 := by decide

set_option maxRecDepth 100000 in
theorem accBits_byte : ∀ v, v < 256 → accBits 8 v 0 = v := by decide

/-- One pair that encodes a bit moves the accumulator as `accBits` says. -/
theorem bitLoop_pairs (tap_version end_ : Nat) :
    ∀ (ps : List (Nat × Nat)) (v i byte bit : Nat) (f : FILE) (tail : List Nat),
      encodesLsb v ps → f.data.drop f.pos = pulsesOf ps ++ tail →
      i + 2 * ps.length ≤ end_ + 1 → i + 2 * ps.length < U32 → byte < 256 →
      bitLoop tap_version end_ ps.length i byte bit f =
        (accBits ps.length v byte, { f with pos := f.pos + 2 * ps.length }) := by
  intro ps
  induction ps with
  | nil => intro v i byte bit f tail _ _ _ _ _; rfl
  | cons p ps ih =>
    intro v i byte bit f tail henc hdrop hend hu hbyte
    obtain ⟨hp, hrest⟩ := henc
    simp only [pulsesOf, List.cons_append] at hdrop
    obtain ⟨hd1, hdrop1⟩ := drop_cons_get hdrop
    obtain ⟨hd2, hdrop2⟩ := drop_cons_get hdrop1
    simp only [List.length_cons] at hend hu ⊢
    have hi : i < end_ := by omega
    have himod : (i + 2) % U32 = i + 2 := Nat.mod_eq_of_lt (by omega)
    have hcls1 : isshort p.1 ≠ 0 ∨ ismedium p.1 ≠ 0 ∨ islong p.1 ≠ 0 := by
      unfold pairEncodes at hp
      split at hp
      · rcases hp.1 with h | h
        · exact Or.inr (Or.inl h)
        · exact Or.inr (Or.inr h)
      · exact Or.inl hp.1
    have hcls2 : isshort p.2 ≠ 0 ∨ ismedium p.2 ≠ 0 ∨ islong p.2 ≠ 0 := by
      unfold pairEncodes at hp
      split at hp
      · exact Or.inl hp.2
      · rcases hp.2 with h | h
        · exact Or.inr (Or.inl h)
        · exact Or.inr (Or.inr h)
    obtain ⟨hne1, hmod1⟩ := pulse_class_byte p.1 hcls1
    obtain ⟨hne2, hmod2⟩ := pulse_class_byte p.2 hcls2
    have hg1 := get_pulse_nonzero tap_version f p.1 hd1 hne1
    have hg2 := get_pulse_nonzero tap_version { f with pos := f.pos + 1 } p.2 hd2 hne2
    rw [bitLoop]
    simp only [hi, if_true, hg1, hg2, hmod1, hmod2, himod]
    have hstep : ∀ bit1 byte1, bit1 = 128 * (v % 2) → byte1 = byte / 2 + 128 * (v % 2) →
        bitLoop tap_version end_ ps.length (i + 2) byte1 bit1
          { f with pos := f.pos + 1 + 1 } =
        (accBits (ps.length + 1) v byte, { f with pos := f.pos + 2 * (ps.length + 1) }) := by
      intro bit1 byte1 _ hb1
      have hlt : byte1 < 256 := by omega
      rw [ih (v / 2) (i + 2) byte1 bit1 { f with pos := f.pos + 1 + 1 } tail hrest hdrop2
        (by omega) (by omega) hlt, accBits, hb1]
      congr 2
      simp only
      omega
    unfold pairEncodes at hp
    by_cases hbit : v.testBit 0 = true
    · simp only [hbit, if_true] at hp
      have hv2 : v % 2 = 1 := by
        rw [Nat.testBit_to_div_mod] at hbit
        simpa using hbit
      have hns : ¬ isshort p.1 ≠ 0 := fun h => short_not_mediumlong p.1 h hp.1
      simp only [hns, false_and, if_false, hp.1, hp.2, and_self, if_true]
      apply hstep
      · simp [hp.1, hp.2, hv2]
      · simp [hp.1, hp.2, hv2, shift_or_bit byte hbyte]
    · simp only [hbit, Bool.false_eq_true, if_false] at hp
      have hv2 : v % 2 = 0 := by
        rw [Nat.testBit_to_div_mod] at hbit
        simp at hbit
        omega
      have hnm : ¬ (ismedium p.1 ≠ 0 ∨ islong p.1 ≠ 0) := short_not_mediumlong p.1 hp.1
      simp only [hp.1, hp.2, and_self, if_true, hnm, false_and, if_false]
      apply hstep
      · simp [hp.1, hp.2, hv2, hnm]
      · simp [hp.1, hp.2, hv2, hnm, Nat.shiftRight_eq_div_pow]

theorem encodesLsb_of_index :
    ∀ (ps : List (Nat × Nat)) (v : Nat),
      (∀ j p, ps[j]? = some p → pairEncodes (v.testBit j) p) → encodesLsb v ps := by
  intro ps
  induction ps with
  | nil => intro v _; trivial
  | cons q ps ih =>
    intro v h
    refine ⟨h 0 q (by simp), ih (v / 2) (fun j p hj => ?_)⟩
    have := h (j + 1) p (by simpa using hj)
    rwa [Nat.testBit_succ] at this

/-- C3: on a stream Long, Medium, eight pairs that encode the bits of `v` from
bit 0 up, and two trailing single-byte pulses, `readbyte` called with
`end > 14` returns `v` and leaves the cursor after the twenty pulses. -/
theorem readbyte_sync_recovery (tap_version v l m t1 t2 start end_ : Nat)
    (pairs : List (Nat × Nat)) (rest : List Nat)
    (hv : v < 256) (hl : islong l ≠ 0) (hm : ismedium m ≠ 0) (hlen : pairs.length = 8)
    (hp : ∀ j p, pairs[j]? = some p → pairEncodes (v.testBit j) p)
    (ht : tap_version = 0 ∨ (t1 ≠ 0 ∧ t2 ≠ 0)) (hend : 14 < end_) :
    readbyte tap_version ⟨l :: m :: (pulsesOf pairs ++ t1 :: t2 :: rest), 0, false⟩
        start end_ =
      some (v, ⟨l :: m :: (pulsesOf pairs ++ t1 :: t2 :: rest), 20, false⟩) := by
  obtain ⟨hl0, hlmod⟩ := pulse_class_byte l (Or.inr (Or.inr hl))
  obtain ⟨hm0, hmmod⟩ := pulse_class_byte m (Or.inr (Or.inl hm))
  generalize hdata : l :: m :: (pulsesOf pairs ++ t1 :: t2 :: rest) = data
  have hd0 : data.drop 0 = l :: m :: (pulsesOf pairs ++ t1 :: t2 :: rest) := by
    rw [← hdata]; rfl
  obtain ⟨hg0, hd1⟩ := drop_cons_get hd0
  obtain ⟨hg1, hd2⟩ := drop_cons_get hd1
  have e0 := get_pulse_nonzero tap_version ⟨data, 0, false⟩ l hg0 hl0
  have e1 := get_pulse_nonzero tap_version ⟨data, 1, false⟩ m hg1 hm0
  have ebits := bitLoop_pairs tap_version end_ pairs v 0 0 0 ⟨data, 2, false⟩
    (t1 :: t2 :: rest) (encodesLsb_of_index pairs v hp) hd2 (by omega)
    (by unfold U32; omega) (by omega)
  rw [hlen, accBits_byte v hv] at ebits
  have hd18 : data.drop 18 = t1 :: t2 :: rest := by
    have h := congrArg (List.drop 16) hd2
    rw [List.drop_drop] at h
    have hl16 : (pulsesOf pairs).length = 16 := by
      rcases pairs with _ | ⟨p0, _ | ⟨p1, _ | ⟨p2, _ | ⟨p3, _ | ⟨p4, _ | ⟨p5, _ | ⟨p6,
        _ | ⟨p7, _ | ⟨p8, ps⟩⟩⟩⟩⟩⟩⟩⟩⟩ <;> simp at hlen
      rfl
    rw [h, List.drop_append_of_le_length (by omega), ← hl16, List.drop_length]
    rfl
  obtain ⟨hg18, hd19⟩ := drop_cons_get hd18
  obtain ⟨hg19, _⟩ := drop_cons_get hd19
  obtain ⟨c1, e18⟩ := get_pulse_single tap_version ⟨data, 18, false⟩ t1 hg18
    (ht.imp id (fun h => h.1))
  obtain ⟨c2, e19⟩ := get_pulse_single tap_version ⟨data, 19, false⟩ t2 hg19
    (ht.imp id (fun h => h.2))
  rw [readbyte]
  simp only [e0, Nat.zero_add]
  rw [syncLoop]
  simp only [e1, hlmod, hmmod, hl, hm, ne_eq, not_false_eq_true, and_self, if_true,
    Nat.reduceAdd]
  simp only [ebits, Nat.reduceMul, Nat.reduceAdd, e18, e19]

/-- C3 on a stream that encodes the byte 138. -/
theorem readbyte_sync_recovery_witness :
    readbyte 1 ⟨0x50 :: 0x40 :: (pulsesOf [(0x30, 0x40), (0x40, 0x30), (0x30, 0x50),
        (0x50, 0x30), (0x30, 0x40), (0x30, 0x40), (0x30, 0x40), (0x40, 0x30)] ++
        1 :: 2 :: []), 0, false⟩ 0 15 =
      some (138, ⟨0x50 :: 0x40 :: (pulsesOf [(0x30, 0x40), (0x40, 0x30), (0x30, 0x50),
        (0x50, 0x30), (0x30, 0x40), (0x30, 0x40), (0x30, 0x40), (0x40, 0x30)] ++
        1 :: 2 :: []), 20, false⟩) :=
  readbyte_sync_recovery 1 138 0x50 0x40 1 2 0 15 _ [] (by decide) (by decide) (by decide)
    rfl
    (fun j p h => by
      rcases j with _ | _ | _ | _ | _ | _ | _ | _ | j <;> simp at h <;> subst h <;> decide)
    (Or.inr ⟨by decide, by decide⟩) (by decide)

/-! ## The pilot scan on blocks of bytes -/

theorem scanStep_pilot_idle (hdrminsize : Int) (st : ScanState) (b : Nat)
    (hb : ispilot (b % 256) ≠ 0) (hok : st.ok = 0) (hpos : st.pos_current + 1 < U32) :
    scanStep hdrminsize st b =
      { st with ok := 1, count := 1, start := st.pos_current,
                pos_current := st.pos_current + 1 } := by
  simp [scanStep, hb, hok, Nat.mod_eq_of_lt hpos]

theorem scanStep_pilot_run (hdrminsize : Int) (st : ScanState) (b : Nat)
    (hb : ispilot (b % 256) ≠ 0) (hok : st.ok ≠ 0) (hpos : st.pos_current + 1 < U32)
    (hcount : st.count + 1 < U32) :
    scanStep hdrminsize st b =
      { st with count := st.count + 1, pos_current := st.pos_current + 1 } := by
  simp [scanStep, hb, hok, Nat.mod_eq_of_lt hpos, Nat.mod_eq_of_lt hcount]

theorem scanStep_other_idle (hdrminsize : Int) (st : ScanState) (b : Nat)
    (hb : ispilot (b % 256) = 0) (hok : st.ok = 0) (hpos : st.pos_current + 1 < U32) :
    scanStep hdrminsize st b = { st with pos_current := st.pos_current + 1 } := by
  simp [scanStep, hb, hok, Nat.mod_eq_of_lt hpos]

theorem scanStep_other_run (hdrminsize : Int) (st : ScanState) (b : Nat)
    (hb : ispilot (b % 256) = 0) (hok : st.ok ≠ 0) (hpos : st.pos_current + 1 < U32)
    (hpos1 : 1 ≤ st.pos_current) :
    scanStep hdrminsize st b =
      { st with ok := 0, count := 0,
                array_pilot :=
                  if toU32 hdrminsize < st.count then
                    st.array_pilot ++ [{ start := st.start, end_ := st.pos_current - 1 }]
                  else st.array_pilot,
                pos_current := st.pos_current + 1 } := by
  have hsub : subU32 st.pos_current 1 = st.pos_current - 1 := by
    unfold subU32 U32 at *
    omega
  simp [scanStep, hb, hok, Nat.mod_eq_of_lt hpos, hsub]

/-- A block of non-pilot bytes read outside a run only moves `pos_current`. -/
theorem scan_block_idle (hdrminsize : Int) :
    ∀ (l : List Nat) (st : ScanState), (∀ x ∈ l, ispilot (x % 256) = 0) → st.ok = 0 →
      st.pos_current + l.length < U32 →
      l.foldl (scanStep hdrminsize) st =
        { st with pos_current := st.pos_current + l.length } := by
  intro l
  induction l with
  | nil => intro st _ _ _; rfl
  | cons b l ih =>
    intro st hl hok hpos
    simp only [List.length_cons] at hpos
    rw [List.foldl_cons, scanStep_other_idle hdrminsize st b (hl b (List.mem_cons_self b l))
      hok (by omega), ih _ (fun x hx => hl x (List.mem_cons_of_mem b hx)) (by simpa using hok)
      (by simp only; omega)]
    simp only [List.length_cons]
    congr 1
    omega

/-- A block of pilot bytes read inside a run adds its length to `count`. -/
theorem scan_block_run (hdrminsize : Int) :
    ∀ (l : List Nat) (st : ScanState), (∀ x ∈ l, ispilot (x % 256) ≠ 0) → st.ok ≠ 0 →
      st.pos_current + l.length < U32 → st.count + l.length < U32 →
      l.foldl (scanStep hdrminsize) st =
        { st with count := st.count + l.length,
                  pos_current := st.pos_current + l.length } := by
  intro l
  induction l with
  | nil => intro st _ _ _ _; rfl
  | cons b l ih =>
    intro st hl hok hpos hcount
    simp only [List.length_cons] at hpos hcount
    rw [List.foldl_cons, scanStep_pilot_run hdrminsize st b (hl b (List.mem_cons_self b l))
      hok (by omega) (by omega), ih _ (fun x hx => hl x (List.mem_cons_of_mem b hx))
      (by simpa using hok) (by simp only; omega) (by simp only; omega)]
    simp only [List.length_cons]
    congr 1 <;> omega

/-- A non-empty block of pilot bytes met outside a run, followed by a non-pilot
byte: the run is recorded when it is longer than `hdrminsize`. -/
theorem scan_block_pilot (hdrminsize : Int) (l : List Nat) (b : Nat) (st : ScanState)
    (hl : ∀ x ∈ l, ispilot (x % 256) ≠ 0) (hne : l ≠ []) (hb : ispilot (b % 256) = 0)
    (hok : st.ok = 0) (hpos : st.pos_current + l.length + 1 < U32) :
    (l ++ [b]).foldl (scanStep hdrminsize) st =
      { ok := 0, count := 0, start := st.pos_current,
        pos_current := st.pos_current + l.length + 1
        array_pilot :=
          if toU32 hdrminsize < l.length then
            st.array_pilot ++
              [{ start := st.pos_current, end_ := st.pos_current + l.length - 1 }]
          else st.array_pilot } := by
  obtain ⟨a, t, rfl⟩ := List.exists_cons_of_ne_nil hne
  simp only [List.length_cons] at hpos
  rw [List.foldl_append, List.foldl_cons (l := t),
    scanStep_pilot_idle hdrminsize st a (hl a (List.mem_cons_self a t)) hok (by omega),
    scan_block_run hdrminsize t _ (fun x hx => hl x (List.mem_cons_of_mem a hx))
      (by simp) (by simp only; omega) (by simp only; omega)]
  simp only [List.foldl_cons, List.foldl_nil]
  rw [scanStep_other_run hdrminsize _ b hb (by simp) (by simp only; omega)
    (by simp only; omega)]
  simp only [List.length_cons]
  have e1 : 1 + t.length = t.length + 1 := by omega
  have e2 : st.pos_current + 1 + t.length + 1 = st.pos_current + (t.length + 1) + 1 := by
    omega
  have e3 : st.pos_current + 1 + t.length - 1 = st.pos_current + (t.length + 1) - 1 := by
    omega
  rw [e1, e2, e3]

/-- A run of pilot bytes followed by a non-empty block of other bytes. -/
theorem scan_run_gap (hdrminsize : Int) (run gap : List Nat) (st : ScanState)
    (hrun : ∀ x ∈ run, ispilot (x % 256) ≠ 0) (hne : run ≠ [])
    (hgap : ∀ x ∈ gap, ispilot (x % 256) = 0) (hgne : gap ≠ [])
    (hok : st.ok = 0) (hpos : st.pos_current + run.length + gap.length < U32) :
    (run ++ gap).foldl (scanStep hdrminsize) st =
      { ok := 0, count := 0, start := st.pos_current,
        pos_current := st.pos_current + run.length + gap.length
        array_pilot :=
          if toU32 hdrminsize < run.length then
            st.array_pilot ++
              [{ start := st.pos_current, end_ := st.pos_current + run.length - 1 }]
          else st.array_pilot } := by
  obtain ⟨b, t, rfl⟩ := List.exists_cons_of_ne_nil hgne
  simp only [List.length_cons] at hpos
  have hsplit : run ++ b :: t = (run ++ [b]) ++ t := by simp
  rw [hsplit, List.foldl_append,
    scan_block_pilot hdrminsize run b st hrun hne (hgap b (List.mem_cons_self b t)) hok
      (by omega),
    scan_block_idle hdrminsize t _ (fun x hx => hgap x (List.mem_cons_of_mem b hx)) rfl
      (by simp only; omega)]
  simp only [List.length_cons]
  congr 1
  omega

/-- The scan of a payload with exactly two runs of pilot bytes. -/
theorem scan_two_runs (hdrminsize : Int) (pre run1 gap run2 tail : List Nat)
    (hpre : ∀ x ∈ pre, ispilot (x % 256) = 0)
    (hrun1 : ∀ x ∈ run1, ispilot (x % 256) ≠ 0) (hne1 : run1 ≠ [])
    (hgap : ∀ x ∈ gap, ispilot (x % 256) = 0) (hgne : gap ≠ [])
    (hrun2 : ∀ x ∈ run2, ispilot (x % 256) ≠ 0) (hne2 : run2 ≠ [])
    (htail : ∀ x ∈ tail, ispilot (x % 256) = 0) (htne : tail ≠ [])
    (hlen : (pre ++ run1 ++ gap ++ run2 ++ tail).length + 20 < U32) :
    (scan hdrminsize (pre ++ run1 ++ gap ++ run2 ++ tail)).array_pilot =
      (if toU32 hdrminsize < run1.length then
        [{ start := 20 + pre.length, end_ := 20 + pre.length + run1.length - 1 }]
       else []) ++
      (if toU32 hdrminsize < run2.length then
        [{ start := 20 + pre.length + run1.length + gap.length,
           end_ := 20 + pre.length + run1.length + gap.length + run2.length - 1 }]
       else []) := by
  simp only [List.length_append] at hlen
  have hsplit : pre ++ run1 ++ gap ++ run2 ++ tail = pre ++ ((run1 ++ gap) ++ (run2 ++ tail)) := by
    simp
  rw [scan, hsplit, List.foldl_append, List.foldl_append,
    scan_block_idle hdrminsize pre scanInit hpre rfl (by simp only [scanInit]; omega),
    scan_run_gap hdrminsize run1 gap _ hrun1 hne1 hgap hgne rfl
      (by simp only [scanInit]; omega),
    scan_run_gap hdrminsize run2 tail _ hrun2 hne2 htail htne rfl
      (by simp only [scanInit]; omega)]
  simp only [scanInit]
  split <;> split <;> simp

/-- The scan of a payload with exactly one run of pilot bytes. -/
theorem scan_one_run (hdrminsize : Int) (pre run tail : List Nat)
    (hpre : ∀ x ∈ pre, ispilot (x % 256) = 0)
    (hrun : ∀ x ∈ run, ispilot (x % 256) ≠ 0) (hne : run ≠ [])
    (htail : ∀ x ∈ tail, ispilot (x % 256) = 0) (htne : tail ≠ [])
    (hlen : (pre ++ run ++ tail).length + 20 < U32) :
    (scan hdrminsize (pre ++ run ++ tail)).array_pilot =
      if toU32 hdrminsize < run.length then
        [{ start := 20 + pre.length, end_ := 20 + pre.length + run.length - 1 }]
      else [] := by
  simp only [List.length_append] at hlen
  rw [scan, List.append_assoc, List.foldl_append,
    scan_block_idle hdrminsize pre scanInit hpre rfl (by simp only [scanInit]; omega),
    scan_run_gap hdrminsize run tail _ hrun hne htail htne rfl
      (by simp only [scanInit]; omega)]
  simp only [scanInit]
  split <;> simp

theorem mem_replicate_pilot (n x : Nat) (h : x ∈ List.replicate n 50) :
    ispilot (x % 256) ≠ 0 := by
  rw [List.eq_of_mem_replicate h]
  decide

theorem mem_replicate_zero (n x : Nat) (h : x ∈ List.replicate n 0) :
    ispilot (x % 256) = 0 := by
  rw [List.eq_of_mem_replicate h]
  decide

theorem replicate_ne_nil (n v : Nat) (h : 0 < n) : List.replicate n v ≠ [] := by
  intro h0
  have := congrArg List.length h0
  simp at this
  omega

/-- C1 at a failing input, default thresholds: 14000 non-pilot bytes, a pilot
run of 7001 bytes and 100 non-pilot bytes. The last segment (7101 bytes) is
undersized; the filtering loop ends with one segment from 20 to 14020, while
the payload ends at offset 21121. -/
theorem filter_drops_last_segment :
    (mainBlocks (fun _ => 0) 7000 14000
        (List.replicate 14000 0 ++ List.replicate 7001 50 ++ List.replicate 100 0) 5).map
      (fun r => (r.nblocks, r.array_blocks 0, r.array_blocks 1)) = some (1, 20, 14020) ∧
    (List.replicate 14000 0 ++ List.replicate 7001 50 ++ List.replicate 100 0).length + 20
      = 21121 := by
  have hscan := scan_one_run 7000 (List.replicate 14000 0) (List.replicate 7001 50)
    (List.replicate 100 0) (mem_replicate_zero _) (mem_replicate_pilot _)
    (replicate_ne_nil _ _ (by omega)) (mem_replicate_zero _) (replicate_ne_nil _ _ (by omega))
    (by simp only [List.length_append, List.length_replicate, U32]; omega)
  have hlen : (List.replicate 14000 0 ++ List.replicate 7001 50 ++
      List.replicate 100 0).length = 21101 := by
    simp only [List.length_append, List.length_replicate]
  simp only [List.length_replicate] at hscan
  refine ⟨?_, by rw [hlen]⟩
  rw [mainBlocks, hscan, hlen]
  decide

/-! ## The filtering loop -/

theorem shiftLoop_apply :
    ∀ (n c : Nat) (a : Nat → Nat) (k : Nat),
      shiftLoop n c a k = if c ≤ k ∧ k < c + n then a (k + 1) else a k := by
  intro n
  induction n with
  | zero =>
    intro c a k
    have : ¬ (c ≤ k ∧ k < c + 0) := by omega
    rw [shiftLoop, if_neg this]
  | succ n ih =>
    intro c a k
    rw [shiftLoop, ih]
    unfold setAt
    by_cases h1 : c + 1 ≤ k ∧ k < c + 1 + n
    · have h2 : c ≤ k ∧ k < c + (n + 1) := by omega
      have h3 : k + 1 ≠ c := by omega
      simp [h1, h2, h3]
    · by_cases h4 : k = c
      · subst h4
        simp
      · have h2 : ¬ (c ≤ k ∧ k < c + (n + 1)) := by omega
        simp [h1, h2, h4]

/-- One iteration of the filtering loop keeps `FilterInv` and uses up one unit
of `nblocks + 1 - i`. -/
theorem filterStep_inv (blockminsize : Int) (G : Nat → Prop) (s : BlockState)
    (hinv : FilterInv blockminsize G s) (hcond : s.i ≤ s.nblocks) :
    FilterInv blockminsize G (filterStep blockminsize s) ∧
    ((filterStep blockminsize s).nblocks + 1 - (filterStep blockminsize s).i).toNat + 1 =
      (s.nblocks + 1 - s.i).toNat ∧
    (filterStep blockminsize s).nblocks ≤ s.nblocks := by
  obtain ⟨m, hm⟩ := Int.eq_ofNat_of_zero_le hinv.i_nonneg
  obtain ⟨N, hN⟩ := Int.eq_ofNat_of_zero_le (Int.le_trans hinv.i_nonneg hcond)
  have hmN : m ≤ N := by omega
  have hi1 : (s.i + 1).toNat = m + 1 := by omega
  have hi0 : s.i.toNat = m := by omega
  unfold filterStep
  rw [hi1, hi0]
  split
  · -- the segment is too small: its end boundary is spliced out
    have hcnt : (s.nblocks - s.i).toNat = N - m := by omega
    rw [hcnt]
    refine ⟨⟨?_, ?_, ?_, ?_, ?_, ?_, ?_⟩, ?_, ?_⟩
    · simp only; omega
    · simp only; omega
    · intro k hk
      simp only at hk ⊢
      rw [shiftLoop_apply]
      split
      · exact hinv.good (k + 1) (by omega)
      · exact hinv.good k (by omega)
    · intro k hk
      simp only at hk ⊢
      rw [shiftLoop_apply]
      split
      · exact hinv.bound (k + 1) (by omega)
      · exact hinv.bound k (by omega)
    · intro j k hjk hk
      simp only at hk ⊢
      rw [shiftLoop_apply, shiftLoop_apply]
      split <;> split
      · exact hinv.mono (j + 1) (k + 1) (by omega) (by omega)
      · omega
      · exact hinv.mono j (k + 1) (by omega) (by omega)
      · exact hinv.mono j k hjk (by omega)
    · intro _
      simp only
      rw [shiftLoop_apply]
      have : ¬ (m + 1 ≤ 0 ∧ 0 < m + 1 + (N - m)) := by omega
      simp only [this, if_false]
      exact hinv.first (by omega)
    · intro j hj1 hj2
      simp only at hj1 hj2 ⊢
      rw [shiftLoop_apply, shiftLoop_apply]
      have h1 : ¬ (m + 1 ≤ j + 1 ∧ j + 1 < m + 1 + (N - m)) := by omega
      have h2 : ¬ (m + 1 ≤ j ∧ j < m + 1 + (N - m)) := by omega
      simp only [h1, h2, if_false]
      exact hinv.sized j (by omega) (by omega)
    · simp only; omega
    · simp only; omega
  · rename_i hno
    refine ⟨⟨?_, ?_, ?_, ?_, ?_, ?_, ?_⟩, ?_, ?_⟩
    · simp only; omega
    · simp only; omega
    · exact hinv.good
    · exact hinv.bound
    · exact hinv.mono
    · exact hinv.first
    · intro j hj1 hj2
      simp only at hj1 hj2 ⊢
      rcases Nat.lt_or_ge j m with h | h
      · exact hinv.sized j (by omega) hj2
      · have : j = m := by omega
        subst this
        exact hno
    · simp only; omega
    · simp only; omega

/-- The filtering loop ends within `nblocks + 2 - i` iterations, with `i`
past `nblocks` and `FilterInv` true. -/
theorem filterLoop_inv (blockminsize : Int) (G : Nat → Prop) :
    ∀ (fuel : Nat) (s : BlockState), FilterInv blockminsize G s →
      (s.nblocks + 1 - s.i).toNat < fuel →
      ∃ r, filterLoop blockminsize fuel s = some r ∧ FilterInv blockminsize G r ∧
        r.nblocks < r.i ∧ r.nblocks ≤ s.nblocks := by
  intro fuel
  induction fuel with
  | zero => intro s _ h; omega
  | succ fuel ih =>
    intro s hinv hfuel
    rw [filterLoop]
    by_cases hcond : s.i ≤ s.nblocks
    · obtain ⟨h1, h2, h3⟩ := filterStep_inv blockminsize G s hinv hcond
      obtain ⟨r, hr, hr1, hr2, hr3⟩ := ih (filterStep blockminsize s) h1 (by omega)
      exact ⟨r, by simp only [hcond, if_true, hr], hr1, hr2, by omega⟩
    · exact ⟨s, by simp only [hcond, if_false], hinv, by omega, by omega⟩

/-! ## The scan loop: what `array_pilot` holds -/

theorem scanStep_inv (hdrminsize : Int) (payload : List Nat) (k b : Nat) (st : ScanState)
    (hinv : ScanInv hdrminsize payload k st) (hb : payload[k]? = some b)
    (hlen : payload.length + 20 < U32) :
    ScanInv hdrminsize payload (k + 1) (scanStep hdrminsize st b) := by
  have hk : k < payload.length := by
    rcases Nat.lt_or_ge k payload.length with h | h
    · exact h
    · rw [List.getElem?_eq_none h] at hb
      exact absurd hb (by simp)
  have hpos := hinv.pos
  by_cases hp : ispilot (b % 256) = 0
  · have hnp : ¬ pilotAt payload k := by
      rintro ⟨x, hx, hx2⟩
      rw [hb] at hx
      cases hx
      exact hx2 hp
    by_cases hok : st.ok = 0
    · rw [scanStep_other_idle hdrminsize st b hp hok (by omega)]
      refine ⟨by simp only; omega, fun h => absurd hok h, fun _ _ => by simpa using hnp,
        fun r hr => ?_, hinv.sorted⟩
      obtain ⟨n, h1, h2, h3, h4⟩ := hinv.recs r hr
      exact ⟨n, h1, h2, by omega, h4⟩
    · obtain ⟨c1, c2, c3, c4, c5, c6⟩ := hinv.okrun hok
      rw [scanStep_other_run hdrminsize st b hp hok (by omega) (by omega)]
      refine ⟨by simp only; omega, fun h => absurd rfl h, fun _ _ => by simpa using hnp,
        ?_, ?_⟩
      · intro r hr
        simp only at hr
        split at hr
        · rename_i hcnt
          rcases List.mem_append.mp hr with hr | hr
          · obtain ⟨n, h1, h2, h3, h4⟩ := hinv.recs r hr
            exact ⟨n, h1, h2, by omega, h4⟩
          · rw [List.mem_singleton] at hr
            subst hr
            refine ⟨st.count, hcnt, ⟨c3, by omega, c4, c5, ?_⟩, by simp only; omega,
              by simp only; omega⟩
            have : st.start - 20 + st.count = k := by omega
            simpa [this] using hnp
        · obtain ⟨n, h1, h2, h3, h4⟩ := hinv.recs r hr
          exact ⟨n, h1, h2, by omega, h4⟩
      · simp only
        split
        · rw [List.pairwise_append]
          refine ⟨hinv.sorted, List.pairwise_singleton _ _, fun r hr r2 hr2 => ?_⟩
          rw [List.mem_singleton] at hr2
          subst hr2
          exact c6 r hr
        · exact hinv.sorted
  · have hpk : pilotAt payload k := ⟨b, hb, hp⟩
    by_cases hok : st.ok = 0
    · rw [scanStep_pilot_idle hdrminsize st b hp hok (by omega)]
      refine ⟨by simp only; omega, fun _ => ⟨by simp, by simp only; omega,
        by simp only; omega, ?_, ?_, ?_⟩, fun h => absurd h (by simp), fun r hr => ?_,
        hinv.sorted⟩
      · intro j hj
        simp only at hj ⊢
        have : st.pos_current - 20 + j = k := by omega
        rw [this]
        exact hpk
      · intro h21
        simp only at h21 ⊢
        have : st.pos_current - 21 = k - 1 := by omega
        rw [this]
        exact hinv.idle hok (by omega)
      · intro r hr
        obtain ⟨n, h1, h2, h3, h4⟩ := hinv.recs r hr
        simp only
        omega
      · obtain ⟨n, h1, h2, h3, h4⟩ := hinv.recs r hr
        exact ⟨n, h1, h2, by omega, h4⟩
    · obtain ⟨c1, c2, c3, c4, c5, c6⟩ := hinv.okrun hok
      rw [scanStep_pilot_run hdrminsize st b hp hok (by omega) (by omega)]
      refine ⟨by simp only; omega, fun _ => ⟨by simp, by simp only; omega, c3, ?_, c5, c6⟩,
        fun h => absurd h hok, fun r hr => ?_, hinv.sorted⟩
      · intro j hj
        simp only at hj ⊢
        rcases Nat.lt_or_ge j st.count with h | h
        · exact c4 j h
        · have : st.start - 20 + j = k := by omega
          rw [this]
          exact hpk
      · obtain ⟨n, h1, h2, h3, h4⟩ := hinv.recs r hr
        exact ⟨n, h1, h2, by omega, h4⟩

theorem scan_take_inv (hdrminsize : Int) (payload : List Nat)
    (hlen : payload.length + 20 < U32) :
    ∀ k, k ≤ payload.length →
      ScanInv hdrminsize payload k ((payload.take k).foldl (scanStep hdrminsize) scanInit) := by
  intro k
  induction k with
  | zero =>
    intro _
    refine ⟨rfl, fun h => absurd rfl h, fun _ h => by omega, fun r hr => ?_, ?_⟩
    · simp [scanInit] at hr
    · simp [scanInit]
  | succ k ih =>
    intro hk
    have hb : payload[k]? = some payload[k] := List.getElem?_eq_getElem (by omega)
    rw [List.take_succ, hb, Option.toList, List.foldl_append, List.foldl_cons, List.foldl_nil]
    exact scanStep_inv hdrminsize payload k _ _ (ih (by omega)) hb hlen

/-- At the end of the scan every entry of `array_pilot` starts a maximal run of
more than `hdrminsize` pilot bytes, and the entries are in increasing order. -/
theorem scan_inv (hdrminsize : Int) (payload : List Nat) (hlen : payload.length + 20 < U32) :
    ScanInv hdrminsize payload payload.length (scan hdrminsize payload) := by
  have h := scan_take_inv hdrminsize payload hlen payload.length (Nat.le_refl _)
  rwa [List.take_length] at h

/-! ## The boundaries built from `array_pilot` -/

theorem buildLoop_apply :
    ∀ (rs : List record_pilot) (i : Nat) (a : Nat → Nat) (k : Nat),
      buildLoop rs i a k =
        if i ≤ k ∧ k < i + rs.length then ((rs[k - i]?).map (fun r => r.start)).getD 0
        else a k := by
  intro rs
  induction rs with
  | nil =>
    intro i a k
    have : ¬ (i ≤ k ∧ k < i + ([] : List record_pilot).length) := by
      simp only [List.length_nil]; omega
    rw [buildLoop, if_neg this]
  | cons r rs ih =>
    intro i a k
    rw [buildLoop, ih]
    simp only [List.length_cons]
    by_cases h1 : i + 1 ≤ k ∧ k < i + 1 + rs.length
    · have h2 : i ≤ k ∧ k < i + (rs.length + 1) := by omega
      have h3 : k - i = (k - (i + 1)) + 1 := by omega
      rw [if_pos h1, if_pos h2, h3, List.getElem?_cons_succ]
    · rw [if_neg h1]
      unfold setAt
      by_cases h4 : k = i
      · subst h4
        have h2 : k ≤ k ∧ k < k + (rs.length + 1) := by omega
        simp [h2]
      · have h2 : ¬ (i ≤ k ∧ k < i + (rs.length + 1)) := by omega
        rw [if_neg h2, if_neg h4]

theorem buildBlocks_zero (mem : Nat → Nat) (rs : List record_pilot) (data_len : Nat) :
    (buildBlocks mem rs data_len).array_blocks 0 = 20 := by
  simp [buildBlocks, setAt, buildLoop_apply, U32]

theorem buildBlocks_mid (mem : Nat → Nat) (rs : List record_pilot) (data_len j : Nat)
    (r : record_pilot) (hj : rs[j]? = some r) :
    (buildBlocks mem rs data_len).array_blocks (j + 1) = r.start := by
  have hlt : j < rs.length := by
    rcases Nat.lt_or_ge j rs.length with h | h
    · exact h
    · rw [List.getElem?_eq_none h] at hj
      exact absurd hj (by simp)
  have h1 : j + 1 ≠ rs.length + 1 := by omega
  have h2 : 1 ≤ j + 1 ∧ j + 1 < 1 + rs.length := by omega
  simp [buildBlocks, setAt, buildLoop_apply, h1, h2, hj]

theorem buildBlocks_last (mem : Nat → Nat) (rs : List record_pilot) (data_len : Nat) :
    (buildBlocks mem rs data_len).array_blocks (rs.length + 1) = (data_len + 20) % U32 := by
  simp [buildBlocks, setAt]

theorem buildBlocks_nblocks (mem : Nat → Nat) (rs : List record_pilot) (data_len : Nat) :
    (buildBlocks mem rs data_len).nblocks = rs.length + 1 := rfl

/-- The state on entry to the filtering loop satisfies `FilterInv` when the
entries of `array_pilot` are increasing offsets of the payload. -/
theorem buildBlocks_inv (blockminsize : Int) (G : Nat → Prop) (mem : Nat → Nat)
    (rs : List record_pilot) (data_len : Nat)
    (hlen : data_len + 20 < U32)
    (hsorted : rs.Pairwise (fun r1 r2 => r1.start < r2.start))
    (hrange : ∀ r ∈ rs, 20 ≤ r.start ∧ r.start ≤ data_len + 20)
    (hG0 : G 20) (hGend : G (data_len + 20)) (hGrs : ∀ r ∈ rs, G r.start) :
    FilterInv blockminsize G { buildBlocks mem rs data_len with i := 0 } := by
  have hval : ∀ k : Nat, k ≤ rs.length + 1 →
      (k = 0 ∧ (buildBlocks mem rs data_len).array_blocks k = 20) ∨
      (k = rs.length + 1 ∧ (buildBlocks mem rs data_len).array_blocks k = data_len + 20) ∨
      (∃ (j : Nat) (hj : j < rs.length), k = j + 1 ∧
        (buildBlocks mem rs data_len).array_blocks k = (rs[j]).start) := by
    intro k hk
    rcases Nat.eq_zero_or_pos k with h0 | h0
    · subst h0
      exact Or.inl ⟨rfl, buildBlocks_zero mem rs data_len⟩
    · rcases Nat.lt_or_ge k (rs.length + 1) with h1 | h1
      · refine Or.inr (Or.inr ⟨k - 1, by omega, by omega, ?_⟩)
        have := buildBlocks_mid mem rs data_len (k - 1) _
          (List.getElem?_eq_getElem (by omega : k - 1 < rs.length))
        have hk1 : k - 1 + 1 = k := by omega
        rwa [hk1] at this
      · have hk1 : k = rs.length + 1 := by omega
        subst hk1
        refine Or.inr (Or.inl ⟨rfl, ?_⟩)
        rw [buildBlocks_last, Nat.mod_eq_of_lt hlen]
  have hnb : ∀ k : Nat, (k : Int) ≤ (buildBlocks mem rs data_len).nblocks →
      k ≤ rs.length + 1 := by
    intro k hk
    rw [buildBlocks_nblocks] at hk
    omega
  have hrangeAt : ∀ (j : Nat) (hj : j < rs.length),
      20 ≤ (rs[j]).start ∧ (rs[j]).start ≤ data_len + 20 :=
    fun j hj => hrange _ (List.getElem_mem hj)
  refine ⟨by simp, ?_, ?_, ?_, ?_, fun _ => buildBlocks_zero mem rs data_len,
    fun j hj => ?_⟩
  · simp only [buildBlocks_nblocks]; omega
  · intro k hk
    simp only at hk ⊢
    rcases hval k (hnb k hk) with ⟨_, h⟩ | ⟨_, h⟩ | ⟨j, hj, _, h⟩
    · rw [h]; exact hG0
    · rw [h]; exact hGend
    · rw [h]; exact hGrs _ (List.getElem_mem hj)
  · intro k hk
    simp only at hk ⊢
    rcases hval k (hnb k hk) with ⟨_, h⟩ | ⟨_, h⟩ | ⟨j, hj, _, h⟩
    · rw [h]; unfold U32; omega
    · rw [h]; exact hlen
    · rw [h]; have := hrangeAt j hj; omega
  · intro j k hjk hk
    simp only at hk ⊢
    have hk1 := hnb k hk
    rcases hval j (by omega) with ⟨_, h⟩ | ⟨ej, _⟩ | ⟨j1, hj1, ej, h⟩
    · rcases hval k hk1 with ⟨_, h2⟩ | ⟨_, h2⟩ | ⟨k1, hk1', _, h2⟩
      · rw [h, h2]
      · rw [h, h2]; omega
      · rw [h, h2]; exact (hrangeAt k1 hk1').1
    · have hjk2 : j = k := by omega
      subst hjk2
      exact Nat.le_refl _
    · rcases hval k hk1 with ⟨ek, _⟩ | ⟨_, h2⟩ | ⟨k1, hk1', ek, h2⟩
      · omega
      · rw [h, h2]; exact (hrangeAt j1 hj1).2
      · rw [h, h2]
        rcases Nat.lt_or_ge j1 k1 with hlt | hge
        · exact Nat.le_of_lt (List.pairwise_iff_getElem.mp hsorted j1 k1 hj1 hk1' hlt)
        · have hjk1 : j1 = k1 := by omega
          subst hjk1
          exact Nat.le_refl _
  · simp only at hj
    omega

/-! ## `main` from the scan to the end of the filtering loop -/

theorem toU32_of_nonneg (x : Int) (h0 : 0 ≤ x) (h1 : x < 4294967296) : toU32 x = x.toNat := by
  unfold toU32
  omega

theorem subU32_of_le (a b : Nat) (hab : b ≤ a) (ha : a < U32) : subU32 a b = a - b := by
  unfold subU32 U32 at *
  omega

/-- The filtering loop of `main` ends, and `FilterInv` holds at its end, for
every property `G` of the boundaries 20, end of payload and recorded starts. -/
theorem mainBlocks_inv (G : Nat → Prop) (mem : Nat → Nat) (hdrminsize blockminsize : Int)
    (payload : List Nat) (fuel : Nat)
    (hsize : payload.length + 20 < 2147483648)
    (hfuel : (scan hdrminsize payload).array_pilot.length + 3 ≤ fuel)
    (hG0 : G 20) (hGend : G (payload.length + 20))
    (hGrs : ∀ r ∈ (scan hdrminsize payload).array_pilot, G r.start) :
    ∃ r, mainBlocks mem hdrminsize blockminsize payload fuel = some r ∧
      FilterInv blockminsize G r ∧ r.nblocks < r.i := by
  have hlen : payload.length + 20 < U32 := by unfold U32; omega
  have hmod : payload.length % U32 = payload.length := Nat.mod_eq_of_lt (by omega)
  have hsc := scan_inv hdrminsize payload hlen
  have hrange : ∀ r ∈ (scan hdrminsize payload).array_pilot,
      20 ≤ r.start ∧ r.start ≤ payload.length + 20 := by
    intro r hr
    obtain ⟨n, _, hmax, hlt, _⟩ := hsc.recs r hr
    exact ⟨hmax.1, by omega⟩
  have hinit := buildBlocks_inv blockminsize G mem (scan hdrminsize payload).array_pilot
    payload.length hlen hsc.sorted hrange hG0 hGend hGrs
  obtain ⟨r, hr, hinv, hexit, _⟩ := filterLoop_inv blockminsize G fuel _ hinit (by
    simp only [buildBlocks_nblocks]
    omega)
  exact ⟨r, by rw [mainBlocks]; simp only [hmod]; exact hr, hinv, hexit⟩

/-- C2: for at most 98 recorded pilot runs and `blockminsize ≥ 1`, the
filtering loop ends and every segment `i < nblocks` of the final list has
length `array_blocks[i+1] - array_blocks[i] ≥ blockminsize`; the boundaries are
strictly increasing. -/
theorem filter_segments_sized (mem : Nat → Nat) (hdrminsize blockminsize : Int)
    (payload : List Nat) (fuel : Nat)
    (hruns : (scan hdrminsize payload).array_pilot.length ≤ 98)
    (hblk : 1 ≤ blockminsize) (hint : blockminsize < 2147483648)
    (hsize : payload.length + 20 < 2147483648)
    (hfuel : (scan hdrminsize payload).array_pilot.length + 3 ≤ fuel) :
    ∃ r, mainBlocks mem hdrminsize blockminsize payload fuel = some r ∧
      ∀ i : Nat, (i : Int) < r.nblocks →
        blockminsize ≤ (r.array_blocks (i + 1) : Int) - (r.array_blocks i : Int) ∧
        r.array_blocks i < r.array_blocks (i + 1) := by
  obtain ⟨r, hr, hinv, hexit⟩ := mainBlocks_inv (fun _ => True) mem hdrminsize blockminsize
    payload fuel hsize hfuel trivial trivial (fun _ _ => trivial)
  refine ⟨r, hr, fun i hi => ?_⟩
  have hs := hinv.sized i (by omega) hi
  have hm := hinv.mono i (i + 1) (by omega) (by omega)
  have hb := hinv.bound (i + 1) (by omega)
  rw [subU32_of_le _ _ hm hb, toU32_of_nonneg blockminsize (by omega) (by omega)] at hs
  omega

/-- C6: every entry `array_blocks[0..nblocks]` of the final list is 20, the end
of the payload, or the start of a maximal run of pilot bytes longer than
`hdrminsize`. -/
theorem boundaries_are_run_starts (mem : Nat → Nat) (hdrminsize blockminsize : Int)
    (payload : List Nat) (fuel : Nat)
    (hruns : (scan hdrminsize payload).array_pilot.length ≤ 98)
    (hint : hdrminsize < 2147483648)
    (hsize : payload.length + 20 < 2147483648)
    (hfuel : (scan hdrminsize payload).array_pilot.length + 3 ≤ fuel) :
    ∃ r, mainBlocks mem hdrminsize blockminsize payload fuel = some r ∧
      ∀ k : Nat, (k : Int) ≤ r.nblocks →
        r.array_blocks k = 20 ∨ r.array_blocks k = payload.length + 20 ∨
        ∃ n : Nat, hdrminsize < (n : Int) ∧ MaximalPilotRun payload (r.array_blocks k) n := by
  have hlen : payload.length + 20 < U32 := by unfold U32; omega
  obtain ⟨r, hr, hinv, _⟩ := mainBlocks_inv
    (fun x => x = 20 ∨ x = payload.length + 20 ∨
      ∃ n : Nat, hdrminsize < (n : Int) ∧ MaximalPilotRun payload x n)
    mem hdrminsize blockminsize payload fuel hsize hfuel (Or.inl rfl) (Or.inr (Or.inl rfl))
    (fun rec hrec => by
      obtain ⟨n, hn, hmax, _, _⟩ := (scan_inv hdrminsize payload hlen).recs rec hrec
      refine Or.inr (Or.inr ⟨n, ?_, hmax⟩)
      unfold toU32 at hn
      omega)
  exact ⟨r, hr, hinv.good⟩

/-! ## The filtering loop on three candidate segments -/

theorem filterLoop_keep (blockminsize : Int) (fuel : Nat) (a : Nat → Nat) (n pt i : Int)
    (m : Nat) (hi : i = m) (hcond : i ≤ n)
    (hno : ¬ (subU32 (a (m + 1)) (a m) < toU32 blockminsize)) :
    filterLoop blockminsize (fuel + 1) ⟨a, n, pt, i⟩ =
      filterLoop blockminsize fuel ⟨a, n, pt, i + 1⟩ := by
  have h1 : (i + 1).toNat = m + 1 := by omega
  have h0 : i.toNat = m := by omega
  rw [filterLoop, if_pos hcond, filterStep]
  simp only [h1, h0, if_neg hno]

theorem filterLoop_drop (blockminsize : Int) (fuel : Nat) (a : Nat → Nat) (n pt i : Int)
    (m c : Nat) (hi : i = m) (hc : n - i = c) (hcond : i ≤ n)
    (hyes : subU32 (a (m + 1)) (a m) < toU32 blockminsize) :
    filterLoop blockminsize (fuel + 1) ⟨a, n, pt, i⟩ =
      filterLoop blockminsize fuel ⟨shiftLoop c (m + 1) a, n - 1, pt - 1, i - 1 + 1⟩ := by
  have h1 : (i + 1).toNat = m + 1 := by omega
  have h0 : i.toNat = m := by omega
  have h2 : (n - i).toNat = c := by omega
  rw [filterLoop, if_pos hcond, filterStep]
  simp only [h1, h0, h2, if_pos hyes]

theorem filterLoop_exit (blockminsize : Int) (fuel : Nat) (a : Nat → Nat) (n pt i : Int)
    (hcond : n < i) :
    filterLoop blockminsize (fuel + 1) ⟨a, n, pt, i⟩ = some ⟨a, n, pt, i⟩ := by
  rw [filterLoop, if_neg (by simp only; omega)]

theorem toU32_14000 : toU32 14000 = 14000 := by decide

/-- The filtering loop with `blockminsize` 14000 on the boundaries
`20, s1, s2, e` whose last segment is large: which segments are merged. -/
theorem filter_three (a : Nat → Nat) (pt : Int) (fuel s1 s2 e : Nat)
    (h0 : a 0 = 20) (h1 : a 1 = s1) (h2 : a 2 = s2) (h3 : a 3 = e) (h4 : a 4 = 0)
    (b1 : 20 ≤ s1) (b2 : s1 ≤ s2) (b3 : s2 + 14000 ≤ e) (b4 : e < 2147483648) :
    ∃ r, filterLoop 14000 (fuel + 5) ⟨a, 3, pt, 0⟩ = some r ∧
      r.nblocks =
        if s1 - 20 < 14000 then (if s2 - 20 < 14000 then 1 else 2)
        else if s2 - s1 < 14000 then 2 else 3 := by
  have hsub : ∀ x y : Nat, y ≤ x → x < 2147483648 → subU32 x y = x - y := by
    intro x y hxy hx
    unfold subU32 U32
    omega
  have hph : ¬ (subU32 0 e < 14000) := by
    unfold subU32 U32
    omega
  have q1 := hsub s1 20 b1 (by omega)
  have q2 := hsub s2 20 (by omega) (by omega)
  have q3 := hsub s2 s1 b2 (by omega)
  have q4 := hsub e s2 (by omega) b4
  have q5 := hsub e s1 (by omega) b4
  have q6 := hsub e 20 (by omega) b4
  by_cases c1 : s1 - 20 < 14000
  · rw [filterLoop_drop 14000 _ a 3 pt 0 0 3 (by omega) (by omega) (by omega) (by
      rw [toU32_14000, h1, h0, q1]; exact c1)]
    by_cases c2 : s2 - 20 < 14000
    · rw [filterLoop_drop 14000 _ _ _ _ _ 0 2 (by omega) (by omega) (by omega) (by
        simp only [shiftLoop_apply, toU32_14000]
        simp [h2, h0, q2, c2]),
        filterLoop_keep 14000 _ _ _ _ _ 0 (by omega) (by omega) (by
        simp only [shiftLoop_apply, toU32_14000]
        simp [h3, h0, q6]
        omega),
        filterLoop_keep 14000 _ _ _ _ _ 1 (by omega) (by omega) (by
        simp only [shiftLoop_apply, toU32_14000]
        simp [h3, h4, hph]),
        filterLoop_exit 14000 _ _ _ _ _ (by omega)]
      exact ⟨_, rfl, by simp [c1, c2]⟩
    · rw [filterLoop_keep 14000 _ _ _ _ _ 0 (by omega) (by omega) (by
        simp only [shiftLoop_apply, toU32_14000]
        simp [h2, h0, q2, c2]),
        filterLoop_keep 14000 _ _ _ _ _ 1 (by omega) (by omega) (by
        simp only [shiftLoop_apply, toU32_14000]
        simp [h2, h3, q4]
        omega),
        filterLoop_keep 14000 _ _ _ _ _ 2 (by omega) (by omega) (by
        simp only [shiftLoop_apply, toU32_14000]
        simp [h3, h4, hph]),
        filterLoop_exit 14000 _ _ _ _ _ (by omega)]
      exact ⟨_, rfl, by simp [c1, c2]⟩
  · rw [filterLoop_keep 14000 _ a 3 pt 0 0 (by omega) (by omega) (by
      rw [toU32_14000, h1, h0, q1]; exact c1)]
    by_cases c3 : s2 - s1 < 14000
    · rw [filterLoop_drop 14000 _ _ _ _ _ 1 2 (by omega) (by omega) (by omega) (by
        rw [toU32_14000, h2, h1, q3]; exact c3),
        filterLoop_keep 14000 _ _ _ _ _ 1 (by omega) (by omega) (by
        simp only [shiftLoop_apply, toU32_14000]
        simp [h1, h3, q5]
        omega),
        filterLoop_keep 14000 _ _ _ _ _ 2 (by omega) (by omega) (by
        simp only [shiftLoop_apply, toU32_14000]
        simp [h3, h4, hph]),
        filterLoop_exit 14000 _ _ _ _ _ (by omega)]
      exact ⟨_, rfl, by simp [c1, c3]⟩
    · rw [filterLoop_keep 14000 _ _ _ _ _ 1 (by omega) (by omega) (by
        rw [toU32_14000, h2, h1, q3]; exact c3),
        filterLoop_keep 14000 _ _ _ _ _ 2 (by omega) (by omega) (by
        rw [toU32_14000, h3, h2, q4]; omega),
        filterLoop_keep 14000 _ _ _ _ _ 3 (by omega) (by omega) (by
        rw [toU32_14000, h4, h3]; exact hph),
        filterLoop_exit 14000 _ _ _ _ _ (by omega)]
      exact ⟨_, rfl, by simp [c1, c3]⟩

theorem toU32_7000 : toU32 7000 = 7000 := by decide

/-- The number of final segments for a payload with two long pilot runs, a
short gap between them and a long tail, default thresholds. -/
theorem mainBlocks_two_runs (mem : Nat → Nat) (pre run1 gap run2 tail : List Nat) (fuel : Nat)
    (hpre : ∀ x ∈ pre, ispilot (x % 256) = 0)
    (hrun1 : ∀ x ∈ run1, ispilot (x % 256) ≠ 0) (hlen1 : 7000 < run1.length)
    (hgap : ∀ x ∈ gap, ispilot (x % 256) = 0) (hgne : gap ≠ [])
    (hrun2 : ∀ x ∈ run2, ispilot (x % 256) ≠ 0) (hlen2 : 7000 < run2.length)
    (htail : ∀ x ∈ tail, ispilot (x % 256) = 0) (htlen : 14000 < tail.length)
    (hsize : (pre ++ run1 ++ gap ++ run2 ++ tail).length + 20 < 2147483648)
    (hfuel : 5 ≤ fuel) :
    ∃ r, mainBlocks mem 7000 14000 (pre ++ run1 ++ gap ++ run2 ++ tail) fuel = some r ∧
      r.nblocks =
        if pre.length < 14000 then
          (if pre.length + run1.length + gap.length < 14000 then 1 else 2)
        else if run1.length + gap.length < 14000 then 2 else 3 := by
  obtain ⟨n, rfl⟩ : ∃ n, fuel = n + 5 := ⟨fuel - 5, by omega⟩
  have hne1 : run1 ≠ [] := by
    intro h; rw [h] at hlen1; simp at hlen1
  have hne2 : run2 ≠ [] := by
    intro h; rw [h] at hlen2; simp at hlen2
  have htne : tail ≠ [] := by
    intro h; rw [h] at htlen; simp at htlen
  have hscan := scan_two_runs 7000 pre run1 gap run2 tail hpre hrun1 hne1 hgap hgne hrun2 hne2
    htail htne (by unfold U32; omega)
  rw [toU32_7000, if_pos hlen1, if_pos hlen2] at hscan
  have hL : (pre ++ run1 ++ gap ++ run2 ++ tail).length =
      pre.length + run1.length + gap.length + run2.length + tail.length := by
    simp only [List.length_append]
  rw [hL] at hsize
  have hmod : (pre.length + run1.length + gap.length + run2.length + tail.length) % U32 =
      pre.length + run1.length + gap.length + run2.length + tail.length :=
    Nat.mod_eq_of_lt (by unfold U32; omega)
  have hmod2 : (pre.length + run1.length + gap.length + run2.length + tail.length + 20) % U32 =
      pre.length + run1.length + gap.length + run2.length + tail.length + 20 :=
    Nat.mod_eq_of_lt (by unfold U32; omega)
  generalize hr1 : record_pilot.mk (20 + pre.length) (20 + pre.length + run1.length - 1) = r1
    at hscan
  generalize hr2 : record_pilot.mk (20 + pre.length + run1.length + gap.length)
    (20 + pre.length + run1.length + gap.length + run2.length - 1) = r2 at hscan
  have hs1 : r1.start = 20 + pre.length := by rw [← hr1]
  have hs2 : r2.start = 20 + pre.length + run1.length + gap.length := by rw [← hr2]
  obtain ⟨r, hr, hn⟩ := filter_three
    (buildBlocks mem [r1, r2]
      (pre.length + run1.length + gap.length + run2.length + tail.length)).array_blocks
    2 n (20 + pre.length) (20 + pre.length + run1.length + gap.length)
    (pre.length + run1.length + gap.length + run2.length + tail.length + 20)
    (buildBlocks_zero mem _ _)
    (by rw [← hs1]; exact buildBlocks_mid mem [r1, r2] _ 0 r1 rfl)
    (by rw [← hs2]; exact buildBlocks_mid mem [r1, r2] _ 1 r2 rfl)
    (by rw [← hmod2]; exact buildBlocks_last mem [r1, r2] _)
    (by simp [buildBlocks, setAt, buildLoop, blocksInit])
    (by omega) (by omega) (by omega) (by omega)
  refine ⟨r, ?_, ?_⟩
  · rw [mainBlocks, hscan, hL, hmod]
    exact hr
  · rw [hn]
    have e1 : 20 + pre.length - 20 = pre.length := by omega
    have e2 : 20 + pre.length + run1.length + gap.length - 20 =
        pre.length + run1.length + gap.length := by omega
    have e3 : 20 + pre.length + run1.length + gap.length - (20 + pre.length) =
        run1.length + gap.length := by omega
    rw [e1, e2, e3]

theorem replicate_length_gt (n m v : Nat) (h : m < n) : m < (List.replicate n v).length := by
  rw [List.length_replicate]
  exact h

theorem length_five (a b c d e : List Nat) :
    (a ++ b ++ c ++ d ++ e).length =
      a.length + b.length + c.length + d.length + e.length := by
  simp only [List.length_append]

theorem mem_nil_zero (x : Nat) (h : x ∈ ([] : List Nat)) : ispilot (x % 256) = 0 :=
  absurd h (List.not_mem_nil x)

theorem singleton_ne_nil : ([0] : List Nat) ≠ [] := List.cons_ne_nil 0 []

theorem mem_singleton_zero (x : Nat) (h : x ∈ ([0] : List Nat)) : ispilot (x % 256) = 0 := by
  rw [List.mem_singleton] at h
  subst h
  decide

theorem scan_example :
    (scan 7000 (List.replicate 14000 0 ++ List.replicate 7001 50 ++
      List.replicate 14000 0)).array_pilot = [{ start := 14020, end_ := 21020 }] := by
  have h := scan_one_run 7000 (List.replicate 14000 0) (List.replicate 7001 50)
    (List.replicate 14000 0) (mem_replicate_zero _) (mem_replicate_pilot _)
    (replicate_ne_nil _ _ (by omega)) (mem_replicate_zero _) (replicate_ne_nil _ _ (by omega))
    (by simp only [List.length_append, List.length_replicate, U32]; omega)
  simp only [List.length_replicate, toU32_7000] at h
  rw [h]
  rfl

/-- C2 with the default thresholds on a payload with one pilot run of 7001 bytes. -/
theorem filter_segments_sized_witness :
    ∃ r, mainBlocks (fun _ => 0) 7000 14000
        (List.replicate 14000 0 ++ List.replicate 7001 50 ++ List.replicate 14000 0) 4 =
          some r ∧
      ∀ i : Nat, (i : Int) < r.nblocks →
        (14000 : Int) ≤ (r.array_blocks (i + 1) : Int) - (r.array_blocks i : Int) ∧
        r.array_blocks i < r.array_blocks (i + 1) :=
  filter_segments_sized (fun _ => 0) 7000 14000
    (List.replicate 14000 0 ++ List.replicate 7001 50 ++ List.replicate 14000 0) 4
    (by rw [scan_example]; decide) (by decide) (by decide)
    (by simp only [List.length_append, List.length_replicate]; omega)
    (by rw [scan_example]; decide)

/-- C6 with the default thresholds on a payload with one pilot run of 7001 bytes. -/
theorem boundaries_are_run_starts_witness :
    ∃ r, mainBlocks (fun _ => 0) 7000 14000
        (List.replicate 14000 0 ++ List.replicate 7001 50 ++ List.replicate 14000 0) 4 =
          some r ∧
      ∀ k : Nat, (k : Int) ≤ r.nblocks →
        r.array_blocks k = 20 ∨
        r.array_blocks k = (List.replicate 14000 0 ++ List.replicate 7001 50 ++
          List.replicate 14000 0).length + 20 ∨
        ∃ n : Nat, (7000 : Int) < (n : Int) ∧
          MaximalPilotRun (List.replicate 14000 0 ++ List.replicate 7001 50 ++
            List.replicate 14000 0) (r.array_blocks k) n :=
  boundaries_are_run_starts (fun _ => 0) 7000 14000
    (List.replicate 14000 0 ++ List.replicate 7001 50 ++ List.replicate 14000 0) 4
    (by rw [scan_example]; decide) (by decide)
    (by simp only [List.length_append, List.length_replicate]; omega)
    (by rw [scan_example]; decide)

/-- C10 as stated fails: two pilot runs of 7001 bytes, one byte between them
and 14001 bytes after the second; the payload starts with the first run. The
filtering loop ends with one segment, not two. -/
theorem two_runs_counterexample :
    (∀ x ∈ List.replicate 7001 50, ispilot (x % 256) ≠ 0) ∧
    7000 < (List.replicate 7001 50).length ∧
    (∀ x ∈ ([0] : List Nat), ispilot (x % 256) = 0) ∧
    ([0] : List Nat) ≠ [] ∧ ([0] : List Nat).length < 14000 ∧
    (∀ x ∈ List.replicate 14001 0, ispilot (x % 256) = 0) ∧
    14000 < (List.replicate 14001 0).length ∧
    (mainBlocks (fun _ => 0) 7000 14000
      (List.replicate 7001 50 ++ [0] ++ List.replicate 7001 50 ++ List.replicate 14001 0)
      5).map (fun r => r.nblocks) = some 1 := by
  refine ⟨mem_replicate_pilot _, replicate_length_gt _ _ _ (by omega), mem_singleton_zero,
    singleton_ne_nil, by decide, mem_replicate_zero _, replicate_length_gt _ _ _ (by omega),
    ?_⟩
  obtain ⟨r, hr, hn⟩ := mainBlocks_two_runs (fun _ => 0) [] (List.replicate 7001 50) [0]
    (List.replicate 7001 50) (List.replicate 14001 0) 5 mem_nil_zero (mem_replicate_pilot _)
    (replicate_length_gt _ _ _ (by omega)) mem_singleton_zero singleton_ne_nil
    (mem_replicate_pilot _) (replicate_length_gt _ _ _ (by omega))
    (mem_replicate_zero _) (replicate_length_gt _ _ _ (by omega))
    (by simp only [List.length_append, List.length_replicate, List.length_cons,
      List.length_nil]; omega)
    (by omega)
  rw [List.nil_append] at hr
  rw [hr]
  have hn1 : r.nblocks = 1 := by
    rw [hn, List.length_replicate]
    rfl
  rw [Option.map_some', hn1]

/-- C10, amended: for a payload made of `p` bytes without pilot bytes, a pilot
run of more than 7000 bytes, a gap of at least 1 and fewer than 14000
non-pilot bytes, a second pilot run of more than 7000 bytes and more than
14000 non-pilot bytes, the default thresholds give `nblocks = 2` exactly when
either `p ≥ 14000` and first run plus gap are shorter than 14000, or
`p < 14000` and `p` plus first run plus gap reach 14000; `nblocks` is 1, 2 or 3. -/
theorem two_runs_nblocks (mem : Nat → Nat) (pre run1 gap run2 tail : List Nat) (fuel : Nat)
    (hpre : ∀ x ∈ pre, ispilot (x % 256) = 0)
    (hrun1 : ∀ x ∈ run1, ispilot (x % 256) ≠ 0) (hlen1 : 7000 < run1.length)
    (hgap : ∀ x ∈ gap, ispilot (x % 256) = 0) (hgne : gap ≠ []) (hglen : gap.length < 14000)
    (hrun2 : ∀ x ∈ run2, ispilot (x % 256) ≠ 0) (hlen2 : 7000 < run2.length)
    (htail : ∀ x ∈ tail, ispilot (x % 256) = 0) (htlen : 14000 < tail.length)
    (hsize : (pre ++ run1 ++ gap ++ run2 ++ tail).length + 20 < 2147483648)
    (hfuel : 5 ≤ fuel) :
    ∃ r, mainBlocks mem 7000 14000 (pre ++ run1 ++ gap ++ run2 ++ tail) fuel = some r ∧
      (r.nblocks = 2 ↔
        (14000 ≤ pre.length ∧ run1.length + gap.length < 14000) ∨
        (pre.length < 14000 ∧ 14000 ≤ pre.length + run1.length + gap.length)) ∧
      (r.nblocks = 1 ∨ r.nblocks = 2 ∨ r.nblocks = 3) := by
  obtain ⟨r, hr, hn⟩ := mainBlocks_two_runs mem pre run1 gap run2 tail fuel hpre hrun1 hlen1
    hgap hgne hrun2 hlen2 htail htlen hsize hfuel
  refine ⟨r, hr, ?_, ?_⟩ <;> rw [hn] <;> (repeat split) <;> omega

/-- C10, amended, on a payload of 14000 bytes, two runs of 7001 pilot bytes one byte
apart, and 14001 bytes. -/
theorem two_runs_nblocks_witness :
    ∃ r, mainBlocks (fun _ => 0) 7000 14000
        (List.replicate 14000 0 ++ List.replicate 7001 50 ++ [0] ++ List.replicate 7001 50 ++
          List.replicate 14001 0) 5 = some r ∧
      (r.nblocks = 2 ↔
        (14000 ≤ (List.replicate 14000 0).length ∧
          (List.replicate 7001 50).length + ([0] : List Nat).length < 14000) ∨
        ((List.replicate 14000 0).length < 14000 ∧
          14000 ≤ (List.replicate 14000 0).length + (List.replicate 7001 50).length +
            ([0] : List Nat).length)) ∧
      (r.nblocks = 1 ∨ r.nblocks = 2 ∨ r.nblocks = 3) :=
  two_runs_nblocks (fun _ => 0) (List.replicate 14000 0) (List.replicate 7001 50) [0]
    (List.replicate 7001 50) (List.replicate 14001 0) 5 (mem_replicate_zero _)
    (mem_replicate_pilot _) (replicate_length_gt _ _ _ (by omega)) mem_singleton_zero
    singleton_ne_nil (by decide) (mem_replicate_pilot _)
    (replicate_length_gt _ _ _ (by omega)) (mem_replicate_zero _)
    (replicate_length_gt _ _ _ (by omega))
    (by rw [length_five, List.length_replicate, List.length_replicate,
      List.length_replicate, List.length_singleton]; omega)
    (by omega)

/-! ## Progress of the reads -/

theorem FileStep.refl (f : FILE) : FileStep f f :=
  ⟨rfl, Nat.le_refl _, Nat.le_max_left _ _, id, fun h => Or.inl h⟩

theorem FileStep.trans {f g h : FILE} (h1 : FileStep f g) (h2 : FileStep g h) :
    FileStep f h := by
  obtain ⟨a1, a2, a3, a4, a5⟩ := h1
  obtain ⟨b1, b2, b3, b4, b5⟩ := h2
  rw [a1] at b3 b5
  refine ⟨by rw [b1, a1], by omega, by omega, fun x => b4 (a4 x), fun x => ?_⟩
  rcases b5 x with y | y
  · rcases a5 y with z | z
    · exact Or.inl z
    · exact Or.inr (by omega)
  · exact Or.inr y

theorem fread3_none (f f2 : FILE) (h : fread3 f = (none, f2)) :
    f2 = { f with pos := max f.pos f.data.length, eof := true } := by
  unfold fread3 at h
  split at h
  · simp at h
  · simp only [Prod.mk.injEq, true_and] at h
    exact h.symm

theorem fread3_some (f f2 : FILE) (s : Nat × Nat × Nat) (h : fread3 f = (some s, f2)) :
    f2 = { f with pos := f.pos + 3 } ∧ f.pos + 2 < f.data.length := by
  unfold fread3 at h
  split at h
  · rename_i s0 s1 s2 h0 h1 h2
    simp only [Prod.mk.injEq] at h
    refine ⟨h.2.symm, ?_⟩
    rcases Nat.lt_or_ge (f.pos + 2) f.data.length with hl | hl
    · exact hl
    · rw [List.getElem?_eq_none hl] at h2
      exact absurd h2 (by simp)
  · simp at h

/-- A call of `get_pulse` that returns a pulse moves the cursor forward, inside
the data, and leaves the end-of-file flag as it was. -/
theorem get_pulse_some (tap_version : Nat) (f f1 : FILE) (c : Nat)
    (h : get_pulse tap_version f = (some c, f1)) :
    f1.eof = f.eof ∧ f1.data = f.data ∧ f.pos < f1.pos ∧ f1.pos ≤ f.data.length := by
  unfold get_pulse fread1 at h
  cases hd : f.data[f.pos]? with
  | none => simp [hd] at h
  | some d =>
    have hlt : f.pos < f.data.length := by
      rcases Nat.lt_or_ge f.pos f.data.length with hl | hl
      · exact hl
      · rw [List.getElem?_eq_none hl] at hd
        exact absurd hd (by simp)
    simp only [hd] at h
    by_cases hd0 : d = 0
    · simp only [hd0, if_true] at h
      by_cases htv : tap_version = 0
      · simp only [htv, if_true, Prod.mk.injEq] at h
        obtain ⟨_, rfl⟩ := h
        exact ⟨rfl, rfl, by simp, by simp only; omega⟩
      · simp only [htv, if_false] at h
        rcases h3 : fread3 { f with pos := f.pos + 1 } with ⟨_ | s, f2⟩
        · simp [h3] at h
        · obtain ⟨e1, e2⟩ := fread3_some _ _ _ h3
          obtain ⟨s0, s1, s2⟩ := s
          simp only [h3, Prod.mk.injEq] at h
          obtain ⟨_, rfl⟩ := h
          subst e1
          exact ⟨rfl, rfl, by simp only; omega, by simp only at e2 ⊢; omega⟩
    · simp only [hd0, if_false, Prod.mk.injEq] at h
      obtain ⟨_, rfl⟩ := h
      exact ⟨rfl, rfl, by simp, by simp only; omega⟩

/-- A call of `get_pulse` that returns `EOF` sets the end-of-file flag and leaves
the cursor at or past the end of the data. -/
theorem get_pulse_none (tap_version : Nat) (f f1 : FILE)
    (h : get_pulse tap_version f = (none, f1)) :
    f1.eof = true ∧ f1.data = f.data ∧ f.data.length ≤ f1.pos ∧ f.pos ≤ f1.pos ∧
      f1.pos ≤ max f.pos f.data.length := by
  unfold get_pulse fread1 at h
  cases hd : f.data[f.pos]? with
  | none =>
    have hge : f.data.length ≤ f.pos := by
      rcases Nat.lt_or_ge f.pos f.data.length with hl | hl
      · rw [List.getElem?_eq_getElem hl] at hd
        exact absurd hd (by simp)
      · exact hl
    simp only [hd, Prod.mk.injEq, true_and] at h
    subst h
    exact ⟨rfl, rfl, hge, Nat.le_refl _, Nat.le_max_left _ _⟩
  | some d =>
    have hlt : f.pos < f.data.length := by
      rcases Nat.lt_or_ge f.pos f.data.length with hl | hl
      · exact hl
      · rw [List.getElem?_eq_none hl] at hd
        exact absurd hd (by simp)
    simp only [hd] at h
    by_cases hd0 : d = 0
    · simp only [hd0, if_true] at h
      by_cases htv : tap_version = 0
      · simp [htv] at h
      · simp only [htv, if_false] at h
        rcases h3 : fread3 { f with pos := f.pos + 1 } with ⟨_ | s, f2⟩
        · have e1 := fread3_none _ _ h3
          simp only [h3, Prod.mk.injEq, true_and] at h
          subst h
          subst e1
          exact ⟨rfl, rfl, by simp only; omega, by simp only; omega, by simp only; omega⟩
        · obtain ⟨s0, s1, s2⟩ := s
          simp [h3] at h
    · simp [hd0] at h

theorem get_pulse_step (tap_version : Nat) (f : FILE) :
    FileStep f (get_pulse tap_version f).2 := by
  rcases h : get_pulse tap_version f with ⟨_ | c, f1⟩
  · obtain ⟨a1, a2, a3, a4, a5⟩ := get_pulse_none tap_version f f1 h
    exact ⟨a2, a4, a5, fun _ => a1, fun _ => Or.inr a3⟩
  · obtain ⟨a1, a2, a3, a4⟩ := get_pulse_some tap_version f f1 c h
    exact ⟨a2, by simp only; omega, by simp only; omega, fun x => by simp only; rw [a1]; exact x,
      fun x => Or.inl (by simp only at x; rw [a1] at x; exact x)⟩

/-- At or past the end of the data `get_pulse` returns `EOF`. -/
theorem get_pulse_at_end (tap_version : Nat) (f : FILE) (h : f.data.length ≤ f.pos) :
    get_pulse tap_version f = (none, { f with eof := true }) := by
  have : f.data[f.pos]? = none := List.getElem?_eq_none h
  simp [get_pulse, fread1, this]

/-! ## `readbyte`: the sync search, the bit loop and the trailing pulses -/

/-- What the sync search returns: the file has only moved forward; with sync
found no read met `EOF`, without sync the data is used up. -/
theorem syncLoop_result (tap_version : Nat) :
    ∀ (fuel : Nat) (f : FILE) (prev : Nat) (r : Bool) (f2 : FILE),
      syncLoop tap_version fuel f prev = some (r, f2) →
      FileStep f f2 ∧ (r = true → f2.eof = f.eof ∧ f.pos < f2.pos ∧ f2.pos ≤ f.data.length) ∧
        (r = false → f2.eof = true ∧ f.data.length ≤ f2.pos) := by
  intro fuel
  induction fuel with
  | zero => intro f prev r f2 h; simp [syncLoop] at h
  | succ fuel ih =>
    intro f prev r f2 h
    rw [syncLoop] at h
    rcases hg : get_pulse tap_version f with ⟨_ | c, f1⟩
    · obtain ⟨a1, a2, a3, a4, a5⟩ := get_pulse_none tap_version f f1 hg
      simp only [hg, Option.some.injEq, Prod.mk.injEq] at h
      obtain ⟨rfl, rfl⟩ := h
      exact ⟨⟨a2, a4, a5, fun _ => a1, fun _ => Or.inr a3⟩, fun x => absurd x (by simp),
        fun _ => ⟨a1, a3⟩⟩
    · obtain ⟨a1, a2, a3, a4⟩ := get_pulse_some tap_version f f1 c hg
      have hstep : FileStep f f1 := by
        have := get_pulse_step tap_version f
        rwa [hg] at this
      simp only [hg] at h
      split at h
      · simp only [Option.some.injEq, Prod.mk.injEq] at h
        obtain ⟨rfl, rfl⟩ := h
        exact ⟨hstep, fun _ => ⟨a1, a3, a4⟩, fun x => absurd x (by simp)⟩
      · obtain ⟨b1, b2, b3⟩ := ih f1 _ r f2 h
        refine ⟨hstep.trans b1, fun x => ?_, fun x => ?_⟩
        · obtain ⟨c1, c2, c3⟩ := b2 x
          rw [a2] at c3
          exact ⟨by rw [c1, a1], by omega, c3⟩
        · obtain ⟨c1, c2⟩ := b3 x
          rw [a2] at c2
          exact ⟨c1, c2⟩

/-- The sync search ends within one iteration per remaining byte, plus one. -/
theorem syncLoop_total (tap_version : Nat) :
    ∀ (fuel : Nat) (f : FILE) (prev : Nat), f.data.length - f.pos < fuel →
      ∃ r f2, syncLoop tap_version fuel f prev = some (r, f2) := by
  intro fuel
  induction fuel with
  | zero => intro f prev h; omega
  | succ fuel ih =>
    intro f prev h
    rw [syncLoop]
    rcases hg : get_pulse tap_version f with ⟨_ | c, f1⟩
    · exact ⟨false, f1, rfl⟩
    · obtain ⟨a1, a2, a3, a4⟩ := get_pulse_some tap_version f f1 c hg
      simp only
      split
      · exact ⟨true, f1, rfl⟩
      · exact ih f1 _ (by rw [a2]; omega)

set_option maxRecDepth 100000 in
theorem or_bit_lt : ∀ b, b < 256 → (b >>> 1) ||| 128 < 256 := by decide

theorem shift_or_lt (byte bit : Nat) (h1 : byte < 256) (h2 : bit = 0 ∨ bit = 128) :
    (byte >>> 1) ||| bit < 256 := by
  rcases h2 with rfl | rfl
  · rw [Nat.or_zero, Nat.shiftRight_eq_div_pow]
    omega
  · exact or_bit_lt byte h1

/-- The bit loop only moves the file forward and keeps `byte` a byte. -/
theorem bitLoop_result (tap_version end_ : Nat) :
    ∀ (n i byte bit : Nat) (f : FILE), byte < 256 → (bit = 0 ∨ bit = 128) →
      FileStep f (bitLoop tap_version end_ n i byte bit f).2 ∧
        (bitLoop tap_version end_ n i byte bit f).1 < 256 := by
  intro n
  induction n with
  | zero => intro i byte bit f hb _; exact ⟨FileStep.refl f, hb⟩
  | succ n ih =>
    intro i byte bit f hb hbit
    rw [bitLoop]
    split
    · have s1 := get_pulse_step tap_version f
      rcases hg1 : get_pulse tap_version f with ⟨_ | c1, f1⟩
      · rw [hg1] at s1
        exact ⟨s1, hb⟩
      · rw [hg1] at s1
        simp only
        have s2 := get_pulse_step tap_version f1
        rcases hg2 : get_pulse tap_version f1 with ⟨_ | c2, f2⟩
        · rw [hg2] at s2
          exact ⟨s1.trans s2, hb⟩
        · rw [hg2] at s2
          simp only
          have hbit1 : ∀ (p q : Prop) [Decidable p] [Decidable q],
              (if q then 128 else if p then 0 else bit) = 0 ∨
              (if q then 128 else if p then 0 else bit) = 128 := by
            intro p q _ _
            by_cases hq : q
            · simp [hq]
            · by_cases hp : p
              · simp [hq, hp]
              · simp only [hq, hp, if_false]
                exact hbit
          have hb1 := hbit1 (isshort (c1 % 256) ≠ 0 ∧
              (ismedium (c2 % 256) ≠ 0 ∨ islong (c2 % 256) ≠ 0))
            ((ismedium (c1 % 256) ≠ 0 ∨ islong (c1 % 256) ≠ 0) ∧ isshort (c2 % 256) ≠ 0)
          obtain ⟨r1, r2⟩ := ih ((i + 2) % U32) _ _ f2 (shift_or_lt byte _ hb hb1) hb1
          exact ⟨(s1.trans s2).trans r1, r2⟩
    · exact ⟨FileStep.refl f, hb⟩

/-- The rest of `readbyte` after the sync search only moves the file forward
and returns a byte. -/
theorem readbyteTail_result (tap_version end_ : Nat) (f2 : FILE) :
    FileStep f2 (readbyteTail tap_version end_ f2).2 ∧
      (readbyteTail tap_version end_ f2).1 < 256 := by
  obtain ⟨b1, b2⟩ := bitLoop_result tap_version end_ 8 0 0 0 f2 (by omega) (Or.inl rfl)
  unfold readbyteTail
  rcases hb : bitLoop tap_version end_ 8 0 0 0 f2 with ⟨byte, f3⟩
  rw [hb] at b1 b2
  simp only
  have s3 := get_pulse_step tap_version f3
  rcases hg3 : get_pulse tap_version f3 with ⟨_ | c3, f4⟩
  · rw [hg3] at s3
    exact ⟨b1.trans s3, by simp⟩
  · rw [hg3] at s3
    simp only
    have s4 := get_pulse_step tap_version f4
    rcases hg4 : get_pulse tap_version f4 with ⟨_ | c4, f5⟩
    · rw [hg4] at s4
      exact ⟨(b1.trans s3).trans s4, by simp⟩
    · rw [hg4] at s4
      exact ⟨(b1.trans s3).trans s4, b2⟩

/-- When the data ends in the bit loop or at a trailing pulse, the rest of
`readbyte` returns 0. -/
theorem readbyteTail_eof (tap_version end_ : Nat) (f2 : FILE) (h2 : f2.eof = false)
    (hend : (readbyteTail tap_version end_ f2).2.eof = true) :
    (readbyteTail tap_version end_ f2).1 = 0 := by
  obtain ⟨b1, _⟩ := bitLoop_result tap_version end_ 8 0 0 0 f2 (by omega) (Or.inl rfl)
  unfold readbyteTail at hend ⊢
  rcases hb : bitLoop tap_version end_ 8 0 0 0 f2 with ⟨byte, f3⟩
  rw [hb] at b1
  obtain ⟨d1, d2, d3, d4, d5⟩ : FileStep f2 f3 := b1
  simp only [hb] at hend ⊢
  rcases hg3 : get_pulse tap_version f3 with ⟨_ | c3, f4⟩
  · rfl
  · obtain ⟨a1, a2, a3, a4⟩ := get_pulse_some tap_version f3 f4 c3 hg3
    simp only [hg3] at hend ⊢
    rcases hg4 : get_pulse tap_version f4 with ⟨_ | c4, f5⟩
    · rfl
    · obtain ⟨c1, c2, c3', c4'⟩ := get_pulse_some tap_version f4 f5 c4 hg4
      simp only [hg4] at hend ⊢
      -- both trailing pulses were read: the flag was set by the bit loop, with
      -- the cursor at the end of the data, so the first trailing read fails
      exfalso
      have h3 : f3.eof = true := by rw [← a1, ← c1]; exact hend
      rcases d5 h3 with x | x
      · rw [h2] at x
        exact absurd x (by simp)
      · rw [← d1] at x
        omega

/-- With sync found, `readbyte` is the rest of the function run on the file
that the sync search left. -/
theorem readbyte_of_sync (tap_version start end_ c : Nat) (f f1 f2 : FILE)
    (h1 : get_pulse tap_version f = (some c, f1))
    (h2 : syncLoop tap_version (f1.data.length - f1.pos + 1) f1 (c % 256) = some (true, f2)) :
    readbyte tap_version f start end_ = some (readbyteTail tap_version end_ f2) := by
  unfold readbyte readbyteTail
  simp only [h1, h2]
  rcases bitLoop tap_version end_ 8 0 0 0 f2 with ⟨byte, f3⟩
  simp only
  rcases get_pulse tap_version f3 with ⟨_ | c3, f4⟩
  · rfl
  · simp only
    rcases get_pulse tap_version f4 with ⟨_ | c4, f5⟩ <;> rfl

/-- C11 as stated fails: on the stream Long, Medium, Medium, Short the sync is
found, the bit loop has shifted in a 1 (`byte` is 128) when the data ends, and
`readbyte` returns 0. -/
theorem readbyte_truncated_counterexample :
    syncLoop 1 4 ⟨[0x50, 0x40, 0x40, 0x30], 1, false⟩ 0x50 =
      some (true, ⟨[0x50, 0x40, 0x40, 0x30], 2, false⟩) ∧
    bitLoop 1 15 8 0 0 0 ⟨[0x50, 0x40, 0x40, 0x30], 2, false⟩ =
      (128, ⟨[0x50, 0x40, 0x40, 0x30], 4, true⟩) ∧
    readbyte 1 ⟨[0x50, 0x40, 0x40, 0x30], 0, false⟩ 0 15 =
      some (0, ⟨[0x50, 0x40, 0x40, 0x30], 4, true⟩) := by
  decide

/-- C11, amended: when sync is found and the data ends during bit extraction
or during the two trailing-pulse reads, `readbyte` returns 0, with the
end-of-file flag set. -/
theorem readbyte_truncated (tap_version start end_ c : Nat) (f f1 f2 : FILE)
    (hf : f.eof = false)
    (h1 : get_pulse tap_version f = (some c, f1))
    (h2 : syncLoop tap_version (f1.data.length - f1.pos + 1) f1 (c % 256) = some (true, f2))
    (hend : (readbyteTail tap_version end_ f2).2.eof = true) :
    ∃ f', readbyte tap_version f start end_ = some (0, f') ∧ f'.eof = true := by
  have e1 := (get_pulse_some tap_version f f1 c h1).1
  have e2 := ((syncLoop_result tap_version _ f1 _ true f2 h2).2.1 rfl).1
  have hz := readbyteTail_eof tap_version end_ f2 (by rw [e2, e1, hf]) hend
  refine ⟨(readbyteTail tap_version end_ f2).2, ?_, hend⟩
  rw [readbyte_of_sync tap_version start end_ c f f1 f2 h1 h2, ← hz]

/-- C11, amended, on the stream Long, Medium, Medium, Short. -/
theorem readbyte_truncated_witness :
    ∃ f', readbyte 1 ⟨[0x50, 0x40, 0x40, 0x30], 0, false⟩ 0 15 = some (0, f') ∧
      f'.eof = true :=
  readbyte_truncated 1 0 15 0x50 ⟨[0x50, 0x40, 0x40, 0x30], 0, false⟩
    ⟨[0x50, 0x40, 0x40, 0x30], 1, false⟩ ⟨[0x50, 0x40, 0x40, 0x30], 2, false⟩ rfl
    (by decide) (by decide) (by decide)

/-! ## `readbyte` and the header search of `GetPrgName` make progress -/

/-- One call of `readbyte` returns a byte; the file has only moved forward,
strictly when the cursor was before the end of the data, and the end-of-file
flag is set when it was not. -/
theorem readbyte_result (tap_version start end_ : Nat) (f : FILE) :
    ∃ b f', readbyte tap_version f start end_ = some (b, f') ∧ b < 256 ∧ FileStep f f' ∧
      (f.pos < f.data.length → f.pos < f'.pos) ∧ (f.data.length ≤ f.pos → f'.eof = true) := by
  have s1 := get_pulse_step tap_version f
  rcases hg : get_pulse tap_version f with ⟨_ | c, f1⟩
  · rw [hg] at s1
    obtain ⟨a1, a2, a3, a4, a5⟩ := get_pulse_none tap_version f f1 hg
    refine ⟨0, f1, ?_, by omega, s1, fun h => by omega, fun _ => a1⟩
    unfold readbyte
    simp only [hg]
  · rw [hg] at s1
    obtain ⟨a1, a2, a3, a4⟩ := get_pulse_some tap_version f f1 c hg
    obtain ⟨r, f2, hs⟩ := syncLoop_total tap_version (f1.data.length - f1.pos + 1) f1 (c % 256)
      (by omega)
    obtain ⟨b1, b2, b3⟩ := syncLoop_result tap_version _ f1 _ r f2 hs
    have s2 : FileStep f f2 := FileStep.trans s1 b1
    cases r with
    | false =>
      refine ⟨0, f2, ?_, by omega, s2, fun _ => ?_, fun h => by omega⟩
      · unfold readbyte
        simp only [hg, hs]
      · have := b1.2.1
        omega
    | true =>
      obtain ⟨t1, t2⟩ := readbyteTail_result tap_version end_ f2
      refine ⟨(readbyteTail tap_version end_ f2).1, (readbyteTail tap_version end_ f2).2,
        readbyte_of_sync tap_version start end_ c f f1 f2 hg hs, t2, s2.trans t1,
        fun _ => ?_, fun h => by omega⟩
      have := b1.2.1
      have := t1.2.1
      omega

/-- The header search of `GetPrgName` ends: one iteration per byte left, one to
meet the end of the file and one to leave the loop are enough. It ends with the
header marker in `byte[0]` or at the end of the file. -/
theorem hdrSearch_total (tap_version start end_ : Nat) :
    ∀ (fuel byte0 : Nat) (f : FILE),
      (if f.eof = true then 1 else f.data.length - f.pos + 2) ≤ fuel →
      ∃ b f', hdrSearch tap_version start end_ fuel byte0 f = some (b, f') ∧
        (isHdr b ≠ 0 ∨ f'.eof = true) ∧ FileStep f f' := by
  intro fuel
  induction fuel with
  | zero =>
    intro byte0 f h
    split at h <;> omega
  | succ fuel ih =>
    intro byte0 f h
    rw [hdrSearch]
    by_cases hc : isHdr byte0 = 0 ∧ f.eof = false
    · obtain ⟨hc1, hc2⟩ := hc
      obtain ⟨b, f1, hr, _, hstep, hlt, hge⟩ := readbyte_result tap_version start end_ f
      simp only [hc1, hc2, and_self, if_true, hr]
      have hfuel : (if f1.eof = true then 1 else f1.data.length - f1.pos + 2) ≤ fuel := by
        simp only [hc2, Bool.false_eq_true, if_false] at h
        by_cases he : f1.eof = true
        · simp only [he, if_true]
          omega
        · simp only [he, Bool.false_eq_true, if_false]
          rcases Nat.lt_or_ge f.pos f.data.length with hl | hl
          · have := hlt hl
            rw [hstep.1]
            omega
          · exact absurd (hge hl) he
      obtain ⟨b2, f2, h2, h3, h4⟩ := ih b f1 hfuel
      exact ⟨b2, f2, h2, h3, hstep.trans h4⟩
    · rw [if_neg hc]
      refine ⟨byte0, f, rfl, ?_, FileStep.refl f⟩
      by_cases h1 : isHdr byte0 = 0
      · right
        by_cases h2 : f.eof = true
        · exact h2
        · exact absurd ⟨h1, by simpa using h2⟩ hc
      · exact Or.inl h1

/-- C12: with the cursor before the end of the data one call of `readbyte`
returns one byte and leaves the cursor further on, not beyond the end of the
data, sync found or not; the header search of `GetPrgName` from any offset
`start` ends, with 0x89 read or at the end of the file. -/
theorem readbyte_progress (tap_version start end_ : Nat) (f : FILE)
    (hpos : f.pos < f.data.length) :
    (∃ b f', readbyte tap_version f start end_ = some (b, f') ∧ b < 256 ∧
      f.pos < f'.pos ∧ f'.pos ≤ f.data.length ∧ f'.data = f.data) ∧
    (∀ fuel, f.data.length - start + 2 ≤ fuel →
      ∃ b f', hdrSearch tap_version start end_ fuel 0 (fseek f start) = some (b, f') ∧
        (b = 0x89 ∨ f'.eof = true)) := by
  constructor
  · obtain ⟨b, f', hr, hb, hstep, hlt, _⟩ := readbyte_result tap_version start end_ f
    have := hstep.2.2.1
    exact ⟨b, f', hr, hb, hlt hpos, by omega, hstep.1⟩
  · intro fuel hfuel
    obtain ⟨b, f', hr, hex, _⟩ := hdrSearch_total tap_version start end_ fuel 0 (fseek f start)
      (by simp only [fseek]; simpa using hfuel)
    refine ⟨b, f', hr, ?_⟩
    rcases hex with h | h
    · left
      unfold isHdr at h
      split at h
      · assumption
      · exact absurd rfl h
    · exact Or.inr h

/-- C12 on a stream of five bytes without sync, header search from offset 1. -/
theorem readbyte_progress_witness :
    (∃ b f', readbyte 1 ⟨[0x30, 0x40, 0x50, 0x30, 0x30], 0, false⟩ 1 5 = some (b, f') ∧
      b < 256 ∧ (⟨[0x30, 0x40, 0x50, 0x30, 0x30], 0, false⟩ : FILE).pos < f'.pos ∧
      f'.pos ≤ (⟨[0x30, 0x40, 0x50, 0x30, 0x30], 0, false⟩ : FILE).data.length ∧
      f'.data = (⟨[0x30, 0x40, 0x50, 0x30, 0x30], 0, false⟩ : FILE).data) ∧
    (∀ fuel, (⟨[0x30, 0x40, 0x50, 0x30, 0x30], 0, false⟩ : FILE).data.length - 1 + 2 ≤ fuel →
      ∃ b f', hdrSearch 1 1 5 fuel 0 (fseek ⟨[0x30, 0x40, 0x50, 0x30, 0x30], 0, false⟩ 1) =
          some (b, f') ∧ (b = 0x89 ∨ f'.eof = true)) :=
  readbyte_progress 1 1 5 ⟨[0x30, 0x40, 0x50, 0x30, 0x30], 0, false⟩ (by decide)

/-! ## `GetPrgName` on a segment without header -/

/-- Without a Long pulse in the rest of the file the sync search runs to the
end of the data. -/
theorem syncLoop_no_long (tap_version : Nat) :
    ∀ (fuel : Nat) (f : FILE) (prev : Nat),
      (∀ j x, f.pos ≤ j → f.data[j]? = some x → x ≠ 0 ∧ islong (x % 256) = 0) →
      islong prev = 0 → f.pos ≤ f.data.length → f.data.length - f.pos < fuel →
      syncLoop tap_version fuel f prev =
        some (false, { f with pos := f.data.length, eof := true }) := by
  intro fuel
  induction fuel with
  | zero => intro f prev _ _ _ h; omega
  | succ fuel ih =>
    intro f prev hall hprev hle hfuel
    rw [syncLoop]
    rcases Nat.lt_or_ge f.pos f.data.length with hl | hl
    · have hx : f.data[f.pos]? = some f.data[f.pos] := List.getElem?_eq_getElem hl
      obtain ⟨hx0, hxl⟩ := hall f.pos _ (Nat.le_refl _) hx
      rw [get_pulse_nonzero tap_version f _ hx hx0]
      have hno : ¬ (islong prev ≠ 0 ∧ ismedium (f.data[f.pos] % 256) ≠ 0) :=
        fun h => h.1 hprev
      simp only [hno, if_false]
      rw [ih { f with pos := f.pos + 1 } _ (fun j x hj hjx => hall j x (by simp only at hj; omega) hjx)
        hxl (by simp only; omega) (by simp only; omega)]
    · have hpos : f.pos = f.data.length := by omega
      rw [get_pulse_at_end tap_version f hl]
      simp only
      rw [← hpos]

/-- On a file whose bytes from the cursor on are non-zero and not Long,
`readbyte` finds no sync: it returns 0 at the end of the file. -/
theorem readbyte_no_long (tap_version start end_ : Nat) (f : FILE)
    (hall : ∀ j x, f.pos ≤ j → f.data[j]? = some x → x ≠ 0 ∧ islong (x % 256) = 0)
    (hpos : f.pos < f.data.length) :
    readbyte tap_version f start end_ =
      some (0, { f with pos := f.data.length, eof := true }) := by
  have hx : f.data[f.pos]? = some f.data[f.pos] := List.getElem?_eq_getElem hpos
  obtain ⟨hx0, hxl⟩ := hall f.pos _ (Nat.le_refl _) hx
  unfold readbyte
  rw [get_pulse_nonzero tap_version f _ hx hx0]
  simp only
  rw [syncLoop_no_long tap_version _ { f with pos := f.pos + 1 } _
    (fun j x hj hjx => hall j x (by simp only at hj; omega) hjx) hxl (by simp only; omega)
    (by simp only; omega)]

/-- When the header search meets the end of the file, `GetPrgName` returns
with the buffer `blockname` as it was. -/
theorem GetPrgName_no_header (tap_version start end_ fuel : Nat) (f : FILE)
    (blockname : List Nat)
    (hall : ∀ j x, start ≤ j → f.data[j]? = some x → x ≠ 0 ∧ islong (x % 256) = 0)
    (hpos : start < f.data.length) (hfuel : 2 ≤ fuel) :
    GetPrgName tap_version start end_ f blockname fuel =
      some (blockname, { f with pos := f.data.length, eof := true }) := by
  obtain ⟨n, rfl⟩ : ∃ n, fuel = n + 2 := ⟨fuel - 2, by omega⟩
  have hr := readbyte_no_long tap_version start end_ (fseek f start) hall hpos
  have hh : isHdr 0 = 0 := by decide
  unfold GetPrgName
  rw [hdrSearch]
  simp only [hh, fseek, true_and, if_true] at hr ⊢
  rw [hr]
  simp only
  rw [hdrSearch]
  simp

theorem get_header_payload (hdr : List Nat) (n v j x : Nat) (hj : hdr.length ≤ j)
    (h : (hdr ++ List.replicate n v)[j]? = some x) : x = v := by
  rw [List.getElem?_append_right hj] at h
  exact List.eq_of_mem_replicate (List.getElem?_mem h)

theorem mem_replicate_space (n x : Nat) (h : x ∈ List.replicate n 0x20) :
    ispilot (x % 256) = 0 := by
  rw [List.eq_of_mem_replicate h]
  decide

/-- C13 at a failing input: a container whose payload is 14000 bytes of
value 0x20. `main` finds one segment, from 20 to 14020; `GetPrgName` on it finds no
header, meets the end of the file and leaves the name buffer as it was, all
zero: the stored name is the empty string, not `NO-NAME`. -/
theorem GetPrgName_leaves_name_empty :
    (mainBlocks (fun _ => 0) 7000 14000 (List.replicate 14000 0x20) 3).map
      (fun r => (r.nblocks, r.array_blocks 0, r.array_blocks 1)) = some (1, 20, 14020) ∧
    GetPrgName 1 20 14020 ⟨tapHeader14000 ++ List.replicate 14000 0x20, 20, false⟩
        (List.replicate 20 0) 2 =
      some (List.replicate 20 0,
        ⟨tapHeader14000 ++ List.replicate 14000 0x20,
          (tapHeader14000 ++ List.replicate 14000 0x20).length, true⟩) ∧
    cstr (List.replicate 20 0) = [] ∧ cstr noName ≠ [] := by
  refine ⟨?_, ?_, by decide, by decide⟩
  · have hscan := scan_block_idle 7000 (List.replicate 14000 0x20) scanInit
      (mem_replicate_space _) rfl
      (by rw [List.length_replicate]; simp only [scanInit, U32]; omega)
    rw [mainBlocks, scan, hscan, List.length_replicate]
    decide
  · exact GetPrgName_no_header 1 20 14020 2
      ⟨tapHeader14000 ++ List.replicate 14000 0x20, 20, false⟩ (List.replicate 20 0)
      (fun j x hj hjx => by
        have := get_header_payload tapHeader14000 14000 0x20 j x hj hjx
        subst this
        decide)
      (by rw [List.length_append, List.length_replicate]; decide)
      (by omega)

/-- On the path of `GetPrgName` that reads a name the stored name is not empty. -/
theorem storeName_nonempty (blockname name : List Nat) :
    cstr (storeName blockname name) ≠ [] := by
  unfold storeName
  simp only
  split
  · unfold strcpy
    have h8 : strlen noName + 1 = 8 := by decide
    rw [h8]
    have : List.take 8 noName = noName := by decide
    rw [this]
    unfold cstr noName
    simp [List.takeWhile]
  · rename_i hc
    have h0 : (replaceLoop (trimSpaces 16 (strcpy blockname (name.set 16 0))).length 0
        (trimSpaces 16 (strcpy blockname (name.set 16 0)))).getD 0 0 ≠ 0 := fun h => hc (Or.inr h)
    generalize replaceLoop (trimSpaces 16 (strcpy blockname (name.set 16 0))).length 0
        (trimSpaces 16 (strcpy blockname (name.set 16 0))) = b3 at h0
    cases b3 with
    | nil => simp at h0
    | cons x xs =>
      simp only [List.getD_cons_zero] at h0
      simp [cstr, List.takeWhile, h0]

/-! ## The pilot scan records every qualifying run -/

theorem pilotAt_iff (payload : List Nat) (k b : Nat) (hb : payload[k]? = some b) :
    pilotAt payload k ↔ ispilot (b % 256) ≠ 0 := by
  constructor
  · rintro ⟨x, hx, hx2⟩
    rw [hb] at hx
    cases hx
    exact hx2
  · exact fun h => ⟨b, hb, h⟩

/-- A step of the scan keeps the entries of `array_pilot`. -/
theorem scanStep_keeps (hdrminsize : Int) (st : ScanState) (b : Nat) (r : record_pilot)
    (hr : r ∈ st.array_pilot) : r ∈ (scanStep hdrminsize st b).array_pilot := by
  unfold scanStep
  simp only
  split
  · split <;> exact hr
  · split
    · simp only
      split
      · exact List.mem_append_left _ hr
      · exact hr
    · exact hr

/-- The length of a maximal run is determined by its start. -/
theorem maximalPilotRun_unique (payload : List Nat) (s n m : Nat)
    (h1 : MaximalPilotRun payload s n) (h2 : MaximalPilotRun payload s m) : n = m := by
  obtain ⟨_, _, a3, _, a5⟩ := h1
  obtain ⟨_, _, b3, _, b5⟩ := h2
  rcases Nat.lt_trichotomy n m with h | h | h
  · exact absurd (b3 n h) a5
  · exact h
  · exact absurd (a3 m h) b5

/-- After `k` bytes the scan has recorded every maximal run of more than
`hdrminsize` pilot bytes whose ending non-pilot byte is among them. -/
theorem scan_take_complete (hdrminsize : Int) (payload : List Nat)
    (hlen : payload.length + 20 < U32) :
    ∀ k, k ≤ payload.length → ∀ s n, MaximalPilotRun payload s n → toU32 hdrminsize < n →
      s - 20 + n < k →
      ∃ r ∈ ((payload.take k).foldl (scanStep hdrminsize) scanInit).array_pilot,
        r.start = s ∧ r.end_ + 1 = s + n := by
  intro k
  induction k with
  | zero => intro _ s n _ _ h; omega
  | succ k ih =>
    intro hk s n hmax hn hsn
    have hb : payload[k]? = some payload[k] := List.getElem?_eq_getElem (by omega)
    have hinv := scan_take_inv hdrminsize payload hlen k (by omega)
    rw [List.take_succ, hb, Option.toList, List.foldl_append, List.foldl_cons, List.foldl_nil]
    rcases Nat.lt_or_ge (s - 20 + n) k with hlt | hge
    · obtain ⟨r, hr, h1, h2⟩ := ih (by omega) s n hmax hn hlt
      exact ⟨r, scanStep_keeps hdrminsize _ _ r hr, h1, h2⟩
    · have hkeq : s - 20 + n = k := by omega
      obtain ⟨m1, m2, m3, m4, m5⟩ := hmax
      rw [hkeq] at m5
      have hp : ispilot (payload[k] % 256) = 0 := by
        by_contra hne
        exact m5 ⟨_, hb, hne⟩
      have hprev : pilotAt payload (k - 1) := by
        have := m3 (n - 1) (by omega)
        have e : s - 20 + (n - 1) = k - 1 := by omega
        rwa [e] at this
      generalize hst : (payload.take k).foldl (scanStep hdrminsize) scanInit = st at hinv
      by_cases hok : st.ok = 0
      · exact absurd hprev (hinv.idle hok (by omega))
      · obtain ⟨c1, c2, c3, c4, c5, c6⟩ := hinv.okrun hok
        have hpos := hinv.pos
        have hs : s = st.start := by
          rcases Nat.lt_trichotomy s st.start with h | h | h
          · exfalso
            have h21 : 21 ≤ st.start := by omega
            have := m3 (st.start - s - 1) (by omega)
            have e : s - 20 + (st.start - s - 1) = st.start - 21 := by omega
            rw [e] at this
            exact c5 h21 this
          · exact h
          · exfalso
            have h21 : 21 ≤ s := by omega
            have := c4 (s - st.start - 1) (by omega)
            have e : st.start - 20 + (s - st.start - 1) = s - 21 := by omega
            rw [e] at this
            exact m4 h21 this
        have hcount : st.count = n := by omega
        rw [scanStep_other_run hdrminsize st _ hp hok (by omega) (by omega)]
        simp only
        rw [hcount, if_pos hn]
        exact ⟨_, List.mem_append_right _ (List.mem_singleton_self _), hs.symm,
          by simp only; omega⟩

/-- C14: the list recorded by the scan is, in increasing order of offset, the
list of the maximal runs of pilot bytes that are longer than `hdrminsize` and
are followed by a non-pilot byte, each with the offsets of its first and last
byte; a maximal run of at most `hdrminsize` bytes, or one that reaches the end
of the data, is not recorded. -/
theorem scan_records_runs (hdrminsize : Int) (payload : List Nat)
    (hruns : (scan hdrminsize payload).array_pilot.length ≤ 100)
    (hh0 : 0 ≤ hdrminsize) (hh1 : hdrminsize < 2147483648)
    (hsize : payload.length + 20 < 2147483648) :
    (scan hdrminsize payload).array_pilot.Pairwise (fun r1 r2 => r1.start < r2.start) ∧
    (∀ r ∈ (scan hdrminsize payload).array_pilot, ∃ n : Nat,
      hdrminsize < (n : Int) ∧ MaximalPilotRun payload r.start n ∧
      r.start - 20 + n < payload.length ∧ r.end_ = r.start + n - 1) ∧
    (∀ s n : Nat, MaximalPilotRun payload s n → hdrminsize < (n : Int) →
      s - 20 + n < payload.length →
      ∃ r ∈ (scan hdrminsize payload).array_pilot, r.start = s ∧ r.end_ = s + n - 1) ∧
    (∀ s n : Nat, MaximalPilotRun payload s n →
      ((n : Int) ≤ hdrminsize ∨ payload.length ≤ s - 20 + n) →
      ∀ r ∈ (scan hdrminsize payload).array_pilot, r.start ≠ s) := by
  have hlen : payload.length + 20 < U32 := by unfold U32; omega
  have hu : toU32 hdrminsize = hdrminsize.toNat := toU32_of_nonneg hdrminsize hh0 (by omega)
  have hinv := scan_inv hdrminsize payload hlen
  have hsound : ∀ r ∈ (scan hdrminsize payload).array_pilot, ∃ n : Nat,
      hdrminsize < (n : Int) ∧ MaximalPilotRun payload r.start n ∧
      r.start - 20 + n < payload.length ∧ r.end_ = r.start + n - 1 := by
    intro r hr
    obtain ⟨n, h1, h2, h3, h4⟩ := hinv.recs r hr
    have := h2.1
    exact ⟨n, by omega, h2, by omega, by omega⟩
  refine ⟨hinv.sorted, hsound, ?_, ?_⟩
  · intro s n hmax hn hsn
    have hc := scan_take_complete hdrminsize payload hlen payload.length (Nat.le_refl _) s n
      hmax (by omega) hsn
    rw [List.take_length] at hc
    obtain ⟨r, hr, h1, h2⟩ := hc
    exact ⟨r, hr, h1, by omega⟩
  · intro s n hmax hcase r hr hrs
    obtain ⟨m, h1, h2, h3, _⟩ := hsound r hr
    rw [hrs] at h2 h3
    have := maximalPilotRun_unique payload s n m hmax h2
    subst this
    omega

/-- C14 on a payload with one pilot run of 7001 bytes, `hdrminsize` 7000: the
recorded list is in increasing order and holds the run. -/
theorem scan_records_runs_witness :
    (scan 7000 (List.replicate 14000 0 ++ List.replicate 7001 50 ++
      List.replicate 14000 0)).array_pilot.Pairwise (fun r1 r2 => r1.start < r2.start) :=
  (scan_records_runs 7000
    (List.replicate 14000 0 ++ List.replicate 7001 50 ++ List.replicate 14000 0)
    (by rw [scan_example]; decide) (by decide) (by decide)
    (by simp only [List.length_append, List.length_replicate]; omega)).1

/-! ## The sync search of `readbyte` -/

theorem skipPulses_succ (tap_version : Nat) :
    ∀ (k : Nat) (f : FILE),
      skipPulses tap_version (k + 1) f = (get_pulse tap_version (skipPulses tap_version k f)).2 := by
  intro k
  induction k with
  | zero => intro f; rfl
  | succ k ih =>
    intro f
    rw [skipPulses, ih, skipPulses]

theorem get_pulse_skip (tap_version k : Nat) (f : FILE) :
    get_pulse tap_version (skipPulses tap_version k f) =
      (nthPulse tap_version k f, skipPulses tap_version (k + 1) f) := by
  rw [skipPulses_succ, nthPulse]

theorem skipPulses_step (tap_version : Nat) :
    ∀ (k : Nat) (f : FILE), FileStep f (skipPulses tap_version k f) := by
  intro k
  induction k with
  | zero => intro f; exact FileStep.refl f
  | succ k ih =>
    intro f
    rw [skipPulses_succ]
    exact (ih f).trans (get_pulse_step tap_version _)

/-- After `EOF` every further call of `get_pulse` returns `EOF`. -/
theorem nthPulse_none_succ (tap_version k : Nat) (f : FILE)
    (h : nthPulse tap_version k f = none) : nthPulse tap_version (k + 1) f = none := by
  have hg := get_pulse_skip tap_version k f
  rw [h] at hg
  obtain ⟨_, a2, a3, _, _⟩ := get_pulse_none tap_version _ _ hg
  rw [nthPulse, get_pulse_at_end tap_version _ (by rw [a2]; exact a3)]

theorem nthPulse_some_of_le (tap_version : Nat) (f : FILE) :
    ∀ (j i b : Nat), nthPulse tap_version j f = some b → i ≤ j →
      ∃ a, nthPulse tap_version i f = some a := by
  intro j
  induction j with
  | zero =>
    intro i b h hi
    have : i = 0 := by omega
    subst this
    exact ⟨b, h⟩
  | succ j ih =>
    intro i b h hi
    rcases Nat.eq_or_lt_of_le hi with he | hl
    · subst he
      exact ⟨b, h⟩
    · cases hj : nthPulse tap_version j f with
      | none =>
        rw [nthPulse_none_succ tap_version j f hj] at h
        exact absurd h (by simp)
      | some c => exact ih i c hj (by omega)

/-- A pulse of at most 256 is classified the same before and after the cast to
`unsigned char`. -/
theorem classify_cast (p : Nat) (h : p ≤ 256) :
    islong (p % 256) = islong p ∧ ismedium (p % 256) = ismedium p ∧
      isshort (p % 256) = isshort p := by
  rcases Nat.lt_or_ge p 256 with hl | hg
  · rw [Nat.mod_eq_of_lt hl]
    exact ⟨rfl, rfl, rfl⟩
  · have h256 : p = 256 := by omega
    subst h256
    decide

theorem nthPulse_none_of_le (tap_version : Nat) (f : FILE) (k : Nat)
    (h : nthPulse tap_version k f = none) :
    ∀ (d : Nat), nthPulse tap_version (k + d) f = none := by
  intro d
  induction d with
  | zero => exact h
  | succ d ih => exact nthPulse_none_succ tap_version (k + d) f ih

/-- The sync search entered after pulse `k - 1` stops at the first sync pattern
at or after index `k`, when no pulse is longer than 256. -/
theorem syncLoop_finds (tap_version : Nat) (f : FILE) (j : Nat)
    (hsmall : ∀ k p, nthPulse tap_version k f = some p → p ≤ 256)
    (hj : SyncAt tap_version f j) :
    ∀ (d k fuel a : Nat), k + d = j → 1 ≤ k →
      nthPulse tap_version (k - 1) f = some a →
      (∀ i, k ≤ i → i < j → ¬ SyncAt tap_version f i) →
      (skipPulses tap_version k f).data.length - (skipPulses tap_version k f).pos < fuel →
      syncLoop tap_version fuel (skipPulses tap_version k f) (a % 256) =
        some (true, skipPulses tap_version (j + 1) f) := by
  intro d
  induction d with
  | zero =>
    intro k fuel a hk h1 ha hno hfuel
    have hkj : k = j := by omega
    subst hkj
    obtain ⟨n, rfl⟩ : ∃ n, fuel = n + 1 := ⟨fuel - 1, by omega⟩
    obtain ⟨a', b, ha', hb, hl, hm⟩ := hj
    rw [ha] at ha'
    have e : a = a' := Option.some.inj ha'
    rw [← e] at hl
    have hl' : islong (a % 256) ≠ 0 := by
      rw [(classify_cast a (hsmall _ _ ha)).1]
      exact hl
    have hm' : ismedium (b % 256) ≠ 0 := by
      rw [(classify_cast b (hsmall _ _ hb)).2.1]
      exact hm
    rw [syncLoop, get_pulse_skip, hb]
    simp only [hl', hm', ne_eq, not_false_eq_true, and_self, if_true]
  | succ d ih =>
    intro k fuel a hk h1 ha hno hfuel
    obtain ⟨n, rfl⟩ : ∃ n, fuel = n + 1 := ⟨fuel - 1, by omega⟩
    obtain ⟨_, bj, _, hbj, _, _⟩ := hj
    obtain ⟨b, hb⟩ := nthPulse_some_of_le tap_version f j k bj hbj (by omega)
    have hg := get_pulse_skip tap_version k f
    rw [hb] at hg
    obtain ⟨_, g2, g3, g4⟩ := get_pulse_some tap_version _ _ b hg
    have hnosync : ¬ (islong (a % 256) ≠ 0 ∧ ismedium (b % 256) ≠ 0) := by
      rw [(classify_cast a (hsmall _ _ ha)).1, (classify_cast b (hsmall _ _ hb)).2.1]
      exact fun h => hno k (Nat.le_refl k) (by omega) ⟨a, b, ha, hb, h.1, h.2⟩
    rw [syncLoop, hg]
    simp only [hnosync, if_false]
    exact ih (k + 1) n b (by omega) (by omega) (by simpa using hb)
      (fun i hi1 hi2 => hno i (by omega) hi2) (by rw [g2]; omega)

/-- Without a sync pattern at or after index `k` the sync search entered after
pulse `k - 1` fails at the end of the data, when no pulse is longer than 256. -/
theorem syncLoop_fails (tap_version : Nat) (f : FILE)
    (hsmall : ∀ k p, nthPulse tap_version k f = some p → p ≤ 256) :
    ∀ (fuel k a : Nat), 1 ≤ k → nthPulse tap_version (k - 1) f = some a →
      (∀ i, k ≤ i → ¬ SyncAt tap_version f i) →
      (skipPulses tap_version k f).data.length - (skipPulses tap_version k f).pos < fuel →
      ∃ f', syncLoop tap_version fuel (skipPulses tap_version k f) (a % 256) =
        some (false, f') := by
  intro fuel
  induction fuel with
  | zero => intro k a _ _ _ h; omega
  | succ n ih =>
    intro k a h1 ha hno hfuel
    rw [syncLoop]
    have hg := get_pulse_skip tap_version k f
    cases hb : nthPulse tap_version k f with
    | none =>
      rw [hb] at hg
      rw [hg]
      exact ⟨_, rfl⟩
    | some b =>
      rw [hb] at hg
      obtain ⟨_, g2, g3, g4⟩ := get_pulse_some tap_version _ _ b hg
      have hnosync : ¬ (islong (a % 256) ≠ 0 ∧ ismedium (b % 256) ≠ 0) := by
        rw [(classify_cast a (hsmall _ _ ha)).1, (classify_cast b (hsmall _ _ hb)).2.1]
        exact fun h => hno k (Nat.le_refl k) ⟨a, b, ha, hb, h.1, h.2⟩
      rw [hg]
      simp only [hnosync, if_false]
      exact ih (k + 1) b (by omega) (by simpa using hb) (fun i hi => hno i (by omega))
        (by rw [g2]; omega)

/-- On a stream in which no pulse is longer than 256 (every version 0 stream,
and every stream without an extended pulse), `readbyte` finds sync at the least
index `j ≥ 1` with `p(j-1)` Long and `p(j)` Medium and goes on with the bit loop
at `p(j+1)`; without such an index it returns 0 with the whole stream read. -/
theorem sync_search_small_pulses (tap_version start end_ : Nat) (f : FILE)
    (hsmall : ∀ k p, nthPulse tap_version k f = some p → p ≤ 256) :
    (∀ j, 1 ≤ j → SyncAt tap_version f j →
      (∀ i, 1 ≤ i → i < j → ¬ SyncAt tap_version f i) →
      readbyte tap_version f start end_ =
        some (readbyteTail tap_version end_ (skipPulses tap_version (j + 1) f))) ∧
    ((∀ j, 1 ≤ j → ¬ SyncAt tap_version f j) →
      ∃ f', readbyte tap_version f start end_ = some (0, f') ∧ f'.eof = true ∧
        f.data.length ≤ f'.pos) := by
  constructor
  · intro j hj1 hj hleast
    obtain ⟨aj, bj, _, hbj, _, _⟩ := hj
    obtain ⟨a, ha⟩ := nthPulse_some_of_le tap_version f j 0 bj hbj (by omega)
    have hg : get_pulse tap_version f = (some a, skipPulses tap_version 1 f) := by
      have := get_pulse_skip tap_version 0 f
      rwa [ha] at this
    have hs := syncLoop_finds tap_version f j hsmall ⟨aj, bj, ‹_›, hbj, ‹_›, ‹_›⟩ (j - 1) 1
      ((skipPulses tap_version 1 f).data.length - (skipPulses tap_version 1 f).pos + 1) a
      (by omega) (by omega) ha hleast (by omega)
    exact readbyte_of_sync tap_version start end_ a f _ _ hg hs
  · intro hno
    cases ha : nthPulse tap_version 0 f with
    | none =>
      have hg : get_pulse tap_version f = (none, skipPulses tap_version 1 f) := by
        have := get_pulse_skip tap_version 0 f
        rwa [ha] at this
      obtain ⟨a1, _, a3, _, _⟩ := get_pulse_none tap_version f _ hg
      refine ⟨skipPulses tap_version 1 f, ?_, a1, a3⟩
      unfold readbyte
      simp only [hg]
    | some a =>
      have hg : get_pulse tap_version f = (some a, skipPulses tap_version 1 f) := by
        have := get_pulse_skip tap_version 0 f
        rwa [ha] at this
      obtain ⟨_, g2, _, _⟩ := get_pulse_some tap_version f _ a hg
      obtain ⟨f', hs⟩ := syncLoop_fails tap_version f hsmall
        ((skipPulses tap_version 1 f).data.length - (skipPulses tap_version 1 f).pos + 1) 1 a
        (by omega) ha hno (by omega)
      obtain ⟨_, _, r3⟩ := syncLoop_result tap_version _ _ _ false f' hs
      obtain ⟨e1, e2⟩ := r3 rfl
      refine ⟨f', ?_, e1, by rw [g2] at e2; exact e2⟩
      unfold readbyte
      simp only [hg, hs]

/-- The sliding window on the stream Short, Long, Medium, Short, Medium: sync is
found at index 2, an even position, and the bit loop starts at the fourth
pulse. -/
theorem sync_search_even_position :
    (∀ k p, nthPulse 1 k ⟨[0x30, 0x50, 0x40, 0x30, 0x40], 0, false⟩ = some p → p ≤ 256) ∧
    SyncAt 1 ⟨[0x30, 0x50, 0x40, 0x30, 0x40], 0, false⟩ 2 ∧
    ¬ SyncAt 1 ⟨[0x30, 0x50, 0x40, 0x30, 0x40], 0, false⟩ 1 ∧
    readbyte 1 ⟨[0x30, 0x50, 0x40, 0x30, 0x40], 0, false⟩ 0 15 =
      some (readbyteTail 1 15 (skipPulses 1 (2 + 1) ⟨[0x30, 0x50, 0x40, 0x30, 0x40], 0, false⟩)) := by
  have hsmall : ∀ k p, nthPulse 1 k ⟨[0x30, 0x50, 0x40, 0x30, 0x40], 0, false⟩ = some p →
      p ≤ 256 := by
    intro k p hk
    have hfin : ∀ i, i < 5 →
        (nthPulse 1 i ⟨[0x30, 0x50, 0x40, 0x30, 0x40], 0, false⟩).getD 0 ≤ 256 := by decide
    rcases Nat.lt_or_ge k 5 with hlt | hge
    · have := hfin k hlt
      rw [hk] at this
      exact this
    · have hnone := nthPulse_none_of_le 1 ⟨[0x30, 0x50, 0x40, 0x30, 0x40], 0, false⟩ 5
        (by decide) (k - 5)
      rw [show 5 + (k - 5) = k by omega, hk] at hnone
      exact absurd hnone (by simp)
  have hno1 : ¬ SyncAt 1 ⟨[0x30, 0x50, 0x40, 0x30, 0x40], 0, false⟩ 1 := by
    rintro ⟨a, b, ha, _, hl, _⟩
    have h0 : nthPulse 1 (1 - 1) ⟨[0x30, 0x50, 0x40, 0x30, 0x40], 0, false⟩ = some 0x30 := rfl
    rw [h0] at ha
    cases ha
    exact hl (by decide)
  have hj : SyncAt 1 ⟨[0x30, 0x50, 0x40, 0x30, 0x40], 0, false⟩ 2 :=
    ⟨0x50, 0x40, rfl, rfl, by decide, by decide⟩
  refine ⟨hsmall, hj, hno1, ?_⟩
  exact (sync_search_small_pulses 1 0 15 ⟨[0x30, 0x50, 0x40, 0x30, 0x40], 0, false⟩ hsmall).1
    2 (by decide) hj
    (fun i h1 h2 hs => by
      have hi : i = 1 := by omega
      subst hi
      exact hno1 hs)

/-- C15 at a failing input, version 1: the pulses of the stream are Short,
330, Medium and then only Short and Medium pulses, so no index `j` has `p(j-1)`
Long and `p(j)` Medium. `readbyte` does not return 0 with the stream consumed:
it takes the pulse 330, cast to 0x4a, as Long, finds sync at index 2, returns
138 and stops one byte before the end of the data. -/
theorem sync_search_extended_pulse :
    nthPulse 1 0 ⟨extendedSyncStream, 0, false⟩ = some 0x30 ∧
    nthPulse 1 1 ⟨extendedSyncStream, 0, false⟩ = some 330 ∧
    nthPulse 1 2 ⟨extendedSyncStream, 0, false⟩ = some 0x40 ∧
    (∀ j, 1 ≤ j → ¬ SyncAt 1 ⟨extendedSyncStream, 0, false⟩ j) ∧
    readbyte 1 ⟨extendedSyncStream, 0, false⟩ 0 15 =
      some (138, ⟨extendedSyncStream, 24, false⟩) ∧
    24 < extendedSyncStream.length := by
  have hfin : ∀ i, i < 22 →
      islong ((nthPulse 1 i ⟨extendedSyncStream, 0, false⟩).getD 0) = 0 := by decide
  have hnone : nthPulse 1 22 ⟨extendedSyncStream, 0, false⟩ = none := by decide
  refine ⟨by decide, by decide, by decide, ?_, by decide, by decide⟩
  rintro j _ ⟨a, b, ha, _, hl, _⟩
  rcases Nat.lt_or_ge (j - 1) 22 with hlt | hge
  · have h := hfin (j - 1) hlt
    rw [ha] at h
    exact hl h
  · have h := nthPulse_none_of_le 1 ⟨extendedSyncStream, 0, false⟩ 22 hnone (j - 1 - 22)
    rw [show 22 + (j - 1 - 22) = j - 1 by omega, ha] at h
    exact absurd h (by simp)

/-! ## The bits shifted in by the bit loop -/

theorem pairEncodes_false (p : Nat × Nat) :
    pairEncodes false p ↔ isshort p.1 ≠ 0 ∧ (ismedium p.2 ≠ 0 ∨ islong p.2 ≠ 0) := by
  simp [pairEncodes]

theorem pairEncodes_true (p : Nat × Nat) :
    pairEncodes true p ↔ (ismedium p.1 ≠ 0 ∨ islong p.1 ≠ 0) ∧ isshort p.2 ≠ 0 := by
  simp [pairEncodes]

theorem pairEncodes_exclusive (p : Nat × Nat) :
    ¬ (pairEncodes false p ∧ pairEncodes true p) := by
  rw [pairEncodes_false, pairEncodes_true]
  rintro ⟨⟨h1, _⟩, ⟨h2, _⟩⟩
  exact short_not_mediumlong p.1 h1 h2

/-- The value of `bit` after the two tests of the bit loop, for the pair `p`. -/
theorem bit_after_pair (bit : Nat) (p : Nat × Nat) :
    (pairEncodes true p →
      (if (ismedium p.1 ≠ 0 ∨ islong p.1 ≠ 0) ∧ isshort p.2 ≠ 0 then 128
       else if isshort p.1 ≠ 0 ∧ (ismedium p.2 ≠ 0 ∨ islong p.2 ≠ 0) then 0 else bit) = 128) ∧
    (pairEncodes false p →
      (if (ismedium p.1 ≠ 0 ∨ islong p.1 ≠ 0) ∧ isshort p.2 ≠ 0 then 128
       else if isshort p.1 ≠ 0 ∧ (ismedium p.2 ≠ 0 ∨ islong p.2 ≠ 0) then 0 else bit) = 0) ∧
    (¬ pairEncodes false p → ¬ pairEncodes true p →
      (if (ismedium p.1 ≠ 0 ∨ islong p.1 ≠ 0) ∧ isshort p.2 ≠ 0 then 128
       else if isshort p.1 ≠ 0 ∧ (ismedium p.2 ≠ 0 ∨ islong p.2 ≠ 0) then 0 else bit) = bit) := by
  refine ⟨fun h => ?_, fun h => ?_, fun h0 h1 => ?_⟩
  · rw [if_pos ((pairEncodes_true p).mp h)]
  · have hn : ¬ pairEncodes true p := fun h1 => pairEncodes_exclusive p ⟨h, h1⟩
    rw [if_neg (fun x => hn ((pairEncodes_true p).mpr x)), if_pos ((pairEncodes_false p).mp h)]
  · rw [if_neg (fun x => h1 ((pairEncodes_true p).mpr x)),
      if_neg (fun x => h0 ((pairEncodes_false p).mpr x))]

theorem pairEncodes_cast (β : Bool) (c1 c2 : Nat) (h1 : c1 ≤ 256) (h2 : c2 ≤ 256) :
    pairEncodes β (c1 % 256, c2 % 256) ↔ pairEncodes β (c1, c2) := by
  obtain ⟨a1, a2, a3⟩ := classify_cast c1 h1
  obtain ⟨b1, b2, b3⟩ := classify_cast c2 h2
  unfold pairEncodes
  simp only [a1, a2, a3, b1, b2, b3]

/-- The bit loop, the pairs it reads and the bits it shifts in; the bit of a
pair follows from its pulse lengths when neither is longer than 256. -/
theorem bitLoop_trace (tap_version end_ : Nat) :
    ∀ (n i byte bit : Nat) (f : FILE),
      (bitLoop tap_version end_ n i byte bit f).1 =
        (bitLoopBits tap_version end_ n i bit f).foldl (fun acc b => (acc >>> 1) ||| b) byte ∧
      (bitLoopBits tap_version end_ n i bit f).length =
        (bitLoopPairs tap_version end_ n i f).length ∧
      (∀ j p, (bitLoopPairs tap_version end_ n i f)[j]? = some p → p.1 ≤ 256 → p.2 ≤ 256 →
        (pairEncodes true p → (bitLoopBits tap_version end_ n i bit f)[j]? = some 128) ∧
        (pairEncodes false p → (bitLoopBits tap_version end_ n i bit f)[j]? = some 0) ∧
        (¬ pairEncodes false p → ¬ pairEncodes true p →
          (bitLoopBits tap_version end_ n i bit f)[j]? =
            if j = 0 then some bit else (bitLoopBits tap_version end_ n i bit f)[j - 1]?)) := by
  intro n
  induction n with
  | zero =>
    intro i byte bit f
    refine ⟨rfl, rfl, fun j p h => ?_⟩
    simp [bitLoopPairs] at h
  | succ n ih =>
    intro i byte bit f
    rw [bitLoop, bitLoopBits, bitLoopPairs]
    by_cases hi : i < end_
    · simp only [hi, if_true]
      rcases get_pulse tap_version f with ⟨_ | c1, f1⟩
      · exact ⟨rfl, rfl, fun j p h => by simp at h⟩
      · simp only
        rcases get_pulse tap_version f1 with ⟨_ | c2, f2⟩
        · exact ⟨rfl, rfl, fun j p h => by simp at h⟩
        · simp only
          obtain ⟨q1, q2, q3⟩ := bit_after_pair bit (c1 % 256, c2 % 256)
          simp only at q1 q2 q3
          generalize hb1 : (if (ismedium (c1 % 256) ≠ 0 ∨ islong (c1 % 256) ≠ 0) ∧
            isshort (c2 % 256) ≠ 0 then 128
            else if isshort (c1 % 256) ≠ 0 ∧ (ismedium (c2 % 256) ≠ 0 ∨ islong (c2 % 256) ≠ 0)
              then 0 else bit) = bit1 at q1 q2 q3 ⊢
          obtain ⟨r1, r2, r3⟩ := ih ((i + 2) % U32) ((byte >>> 1) ||| bit1) bit1 f2
          refine ⟨by rw [r1, List.foldl_cons], by simp only [List.length_cons, r2],
            fun j p h => ?_⟩
          cases j with
          | zero =>
            simp only [List.getElem?_cons_zero, Option.some.injEq] at h
            subst h
            simp only [List.getElem?_cons_zero, if_true, Option.some.injEq]
            intro h1 h2
            have e := fun β => pairEncodes_cast β c1 c2 h1 h2
            exact ⟨fun h => q1 ((e true).mpr h), fun h => q2 ((e false).mpr h),
              fun h0 h1' => q3 (fun x => h0 ((e false).mp x)) (fun x => h1' ((e true).mp x))⟩
          | succ j =>
            simp only [List.getElem?_cons_succ] at h
            intro h1 h2
            obtain ⟨t1, t2, t3⟩ := r3 j p h h1 h2
            simp only [List.getElem?_cons_succ]
            refine ⟨t1, t2, fun h0 h1' => ?_⟩
            rw [t3 h0 h1']
            cases j with
            | zero => simp
            | succ j => simp
    · simp only [hi, if_false]
      exact ⟨rfl, rfl, fun j p h => by simp at h⟩

/-- In the bit loop of `readbyte`, a pair of pulses, neither longer than 256,
that is neither (Short, Medium-or-Long) nor (Medium-or-Long, Short) shifts in
the bit of the pair before it, and 0 when it is the first pair; no pair matches
both patterns. The bits are the ones that make up `byte`; the 0-pattern shifts
in 0, the 1-pattern 128. -/
theorem ambiguous_pair_small_pulses (tap_version end_ : Nat) (f : FILE) :
    (bitLoop tap_version end_ 8 0 0 0 f).1 =
      (bitLoopBits tap_version end_ 8 0 0 f).foldl (fun acc b => (acc >>> 1) ||| b) 0 ∧
    (bitLoopBits tap_version end_ 8 0 0 f).length =
      (bitLoopPairs tap_version end_ 8 0 f).length ∧
    (∀ (j : Nat) (p : Nat × Nat), (bitLoopPairs tap_version end_ 8 0 f)[j]? = some p →
      p.1 ≤ 256 → p.2 ≤ 256 →
      ¬ pairEncodes false p → ¬ pairEncodes true p →
      (bitLoopBits tap_version end_ 8 0 0 f)[j]? =
        if j = 0 then some (0 : Nat) else (bitLoopBits tap_version end_ 8 0 0 f)[j - 1]?) ∧
    (∀ (j : Nat) (p : Nat × Nat), (bitLoopPairs tap_version end_ 8 0 f)[j]? = some p →
      p.1 ≤ 256 → p.2 ≤ 256 →
      (pairEncodes true p → (bitLoopBits tap_version end_ 8 0 0 f)[j]? = some 128) ∧
      (pairEncodes false p → (bitLoopBits tap_version end_ 8 0 0 f)[j]? = some 0)) ∧
    (∀ p, ¬ (pairEncodes false p ∧ pairEncodes true p)) := by
  obtain ⟨r1, r2, r3⟩ := bitLoop_trace tap_version end_ 8 0 0 0 f
  exact ⟨r1, r2, fun j p h h1 h2 => (r3 j p h h1 h2).2.2,
    fun j p h h1 h2 => ⟨(r3 j p h h1 h2).1, (r3 j p h h1 h2).2.1⟩, pairEncodes_exclusive⟩

/-- The pairs (Medium, Short), (Short, Short): the second pair matches no
pattern and shifts in the bit of the first, 128. -/
theorem ambiguous_pair_repeats_bit :
    (bitLoopBits 1 15 8 0 0 ⟨[0x40, 0x30, 0x30, 0x30], 0, false⟩)[1]? =
      if 1 = 0 then some (0 : Nat) else (bitLoopBits 1 15 8 0 0 ⟨[0x40, 0x30, 0x30, 0x30], 0, false⟩)[1 - 1]? :=
  (ambiguous_pair_small_pulses 1 15 ⟨[0x40, 0x30, 0x30, 0x30], 0, false⟩).2.2.1 1 (0x30, 0x30) rfl
    (by decide) (by decide) (by decide) (by decide)

/-- C16 at a failing input, version 1: after Long, Medium the first pair of the
bit loop is the extended pulse 330 and a Short pulse. The pulse 330 is in no
class, so the pair matches neither pattern and, being the first pair, is to
shift in 0. `readbyte` takes 330, cast to 0x4a, as Long: the pair matches the
1-pattern, 128 is shifted in and the byte returned is 1 instead of 0. With
version 0 the zero byte is the pulse 256, cast to 0, and the same pair shifts
in 0. -/
theorem ambiguous_pair_extended_pulse :
    syncLoop 1 23 ⟨extendedPairStream, 1, false⟩ 0x50 =
      some (true, ⟨extendedPairStream, 2, false⟩) ∧
    (bitLoopPairs 1 15 8 0 ⟨extendedPairStream, 2, false⟩)[0]? = some (330, 0x30) ∧
    ¬ pairEncodes false (330, 0x30) ∧ ¬ pairEncodes true (330, 0x30) ∧
    (bitLoopBits 1 15 8 0 0 ⟨extendedPairStream, 2, false⟩)[0]? = some 128 ∧
    bitLoopBits 1 15 8 0 0 ⟨extendedPairStream, 2, false⟩ = [128, 0, 0, 0, 0, 0, 0, 0] ∧
    readbyte 1 ⟨extendedPairStream, 0, false⟩ 0 15 =
      some (1, ⟨extendedPairStream, 23, false⟩) ∧
    (bitLoopPairs 0 15 8 0 ⟨zeroPairStream, 2, false⟩)[0]? = some (256, 0x30) ∧
    (bitLoopBits 0 15 8 0 0 ⟨zeroPairStream, 2, false⟩)[0]? = some 0 ∧
    readbyte 0 ⟨zeroPairStream, 0, false⟩ 0 15 = some (0, ⟨zeroPairStream, 20, false⟩) := by
  decide

/-! ## Extended pulses in `readbyte` -/

/-- C17 at a failing input, version 1: the stream starts with the extended
pulse 330 (bytes 0, 0x50, 0x0a, 0), then Medium, then eight pairs of Short and
Medium pulses that encode 138 and two trailing pulses; no byte after the
extended pulse is Long. `readbyte` takes the pulse 330, cast to 0x4a, as Long:
it finds sync at index 1 and returns 138. With version 0 the zero byte is the
pulse 256, cast to 0, and the same pulses give no sync. -/
theorem extended_pulse_taken_as_long :
    nthPulse 1 0 ⟨[0, 0x50, 0x0a, 0, 0x40, 0x30, 0x40, 0x40, 0x30, 0x30, 0x40, 0x40, 0x30,
      0x30, 0x40, 0x30, 0x40, 0x30, 0x40, 0x40, 0x30, 1, 2], 0, false⟩ = some 330 ∧
    ¬ (0x24 ≤ 330 ∧ 330 ≤ 0x64) ∧ islong (330 % 256) ≠ 0 ∧
    (∀ x ∈ [0x40, 0x30, 0x40, 0x40, 0x30, 0x30, 0x40, 0x40, 0x30,
      0x30, 0x40, 0x30, 0x40, 0x30, 0x40, 0x40, 0x30, 1, 2], islong x = 0) ∧
    readbyte 1 ⟨[0, 0x50, 0x0a, 0, 0x40, 0x30, 0x40, 0x40, 0x30, 0x30, 0x40, 0x40, 0x30,
      0x30, 0x40, 0x30, 0x40, 0x30, 0x40, 0x40, 0x30, 1, 2], 0, false⟩ 0 15 =
      some (138, ⟨[0, 0x50, 0x0a, 0, 0x40, 0x30, 0x40, 0x40, 0x30, 0x30, 0x40, 0x40, 0x30,
        0x30, 0x40, 0x30, 0x40, 0x30, 0x40, 0x40, 0x30, 1, 2], 23, false⟩) ∧
    readbyte 0 ⟨[0, 0x40, 0x30, 0x40, 0x40, 0x30, 0x30, 0x40, 0x40, 0x30,
      0x30, 0x40, 0x30, 0x40, 0x30, 0x40, 0x40, 0x30, 1, 2], 0, false⟩ 0 15 =
      some (0, ⟨[0, 0x40, 0x30, 0x40, 0x40, 0x30, 0x30, 0x40, 0x40, 0x30,
        0x30, 0x40, 0x30, 0x40, 0x30, 0x40, 0x40, 0x30, 1, 2], 20, true⟩) := by
  refine ⟨by decide, by decide, by decide, by decide, ?_, ?_⟩ <;> decide

/-! ## `fixendtape` as a search for a zero byte -/

/-- The backward loop stops at the first zero byte it meets, whatever the
non-zero bytes above it are. -/
theorem fixendtapeLoop_zero (b : List Nat) (len : Int) (k : Nat) (hz : b[k]? = some 0) :
    ∀ (n i : Nat), k ≤ i → i - k < n → i < b.length →
      (∀ j, k < j → j ≤ i → b[j]? ≠ some 0) →
      fixendtapeLoop b len n (i : Int) = some ((k : Int) + 4) := by
  intro n
  induction n with
  | zero => intro i _ h; omega
  | succ n ih =>
    intro i hki hn hib hnz
    rw [fixendtapeLoop, readAt_nat]
    rcases Nat.eq_or_lt_of_le hki with hik | hik
    · subst hik
      simp [hz, isshort_zero]
    · have hx : b[i]? = some b[i] := List.getElem?_eq_getElem hib
      have hx0 : b[i] ≠ 0 := by
        intro h0
        rw [h0] at hx
        exact hnz i hik (Nat.le_refl i) hx
      have hcast : (i : Int) - 1 = ((i - 1 : Nat) : Int) := by omega
      have hrec := ih (i - 1) (by omega) (by omega) (by omega)
        (fun j h1 h2 => hnz j h1 (by omega))
      simp only [hx, hx0, if_false]
      rw [hcast, hrec]
      split <;> rfl

/-- The backward loop only shortens: inside the buffer it returns the length
it was given or an offset of at most `i + 4`. -/
theorem fixendtapeLoop_le (b : List Nat) (len : Int) :
    ∀ (n : Nat) (i : Int), (n : Int) ≤ i + 1 → i < b.length →
      ∃ m : Int, fixendtapeLoop b len n i = some m ∧ (m = len ∨ (4 ≤ m ∧ m ≤ i + 4)) := by
  intro n
  induction n with
  | zero => intro i _ _; exact ⟨len, rfl, Or.inl rfl⟩
  | succ n ih =>
    intro i hn hib
    have hi0 : 0 ≤ i := by omega
    obtain ⟨m, rfl⟩ := Int.eq_ofNat_of_zero_le hi0
    have hmb : m < b.length := by omega
    have hx : b[m]? = some b[m] := List.getElem?_eq_getElem hmb
    obtain ⟨r, hr, hr2⟩ := ih ((m : Int) - 1) (by omega) (by omega)
    have hr3 : r = len ∨ (4 ≤ r ∧ r ≤ (m : Int) + 4) := by
      rcases hr2 with h | h
      · exact Or.inl h
      · exact Or.inr ⟨h.1, by omega⟩
    rw [fixendtapeLoop, readAt_nat]
    simp only [hx]
    split
    · exact ⟨r, hr, hr3⟩
    · split
      · exact ⟨(m : Int) + 4, rfl, Or.inr ⟨by omega, by omega⟩⟩
      · exact ⟨r, hr, hr3⟩

/-- C18: for a buffer of at least 0x4000 bytes `fixendtape` is a search for a
zero byte: with `b[len-4] = 0` the length stays; otherwise it becomes `k + 4`
for the largest `k` with `len - 0x4000 < k < len - 4` and `b[k] = 0`, whatever
the non-zero bytes above `k` are, and it stays when there is no such `k`. The
buffer is returned as it was and the length never grows. -/
theorem fixendtape_zero_search (b : List Nat) (hlen : 0x4000 ≤ b.length) :
    (b[b.length - 4]? = some 0 → fixendtape b b.length = some (b, (b.length : Int))) ∧
    (∀ k : Nat, b[b.length - 4]? ≠ some 0 → b.length - 0x4000 < k → k + 4 < b.length →
      b[k]? = some 0 → (∀ j, k < j → j + 4 < b.length → b[j]? ≠ some 0) →
      fixendtape b b.length = some (b, (k : Int) + 4)) ∧
    (b[b.length - 4]? ≠ some 0 →
      (∀ j, b.length - 0x4000 < j → j + 4 < b.length → b[j]? ≠ some 0) →
      fixendtape b b.length = some (b, (b.length : Int))) ∧
    (∃ n : Nat, fixendtape b b.length = some (b, (n : Int)) ∧ n ≤ b.length) := by
  have hi : (b.length : Int) - 4 = ((b.length - 4 : Nat) : Int) := by omega
  have hx : b[b.length - 4]? = some b[b.length - 4] := List.getElem?_eq_getElem (by omega)
  have hn : ((b.length : Int) - 4 - ((b.length : Int) - 0x4000)).toNat = 16380 := by omega
  have hunf0 : b[b.length - 4]? = some 0 →
      fixendtape b b.length = some (b, (b.length : Int)) := by
    intro h
    simp only [fixendtape, hn]
    rw [hi, readAt_nat]
    simp only [h, ne_eq, not_true_eq_false, if_false]
  have hunf1 : b[b.length - 4]? ≠ some 0 → fixendtape b b.length =
      (fixendtapeLoop b b.length 16380 ((b.length - 4 : Nat) : Int)).map (fun n => (b, n)) := by
    intro h
    rw [hx] at h
    have h' : b[b.length - 4] ≠ 0 := fun e => h (by rw [e])
    simp only [fixendtape, hn]
    rw [hi, readAt_nat]
    simp only [hx, h', ne_eq, not_false_eq_true, if_true]
  refine ⟨hunf0, fun k h0 hk1 hk2 hz hmax => ?_, fun h0 hno => ?_, ?_⟩
  · have hloop := fixendtapeLoop_zero b b.length k hz 16380 (b.length - 4) (by omega)
      (by omega) (by omega) (fun j h1 h2 => by
        rcases Nat.lt_or_ge (j + 4) b.length with h | h
        · exact hmax j h1 h
        · have : j = b.length - 4 := by omega
          rw [this]
          exact h0)
    rw [hunf1 h0, hloop, Option.map_some']
  · have hloop := fixendtapeLoop_nonzero b b.length 16380 ((b.length - 4 : Nat) : Int)
      (by omega) (by omega) (fun j x h1 h2 h3 hx0 => by
        subst hx0
        rcases Nat.lt_or_ge (j + 4) b.length with h | h
        · exact hno j (by omega) h h3
        · have : j = b.length - 4 := by omega
          rw [this] at h3
          exact h0 h3)
    rw [hunf1 h0, hloop, Option.map_some']
  · by_cases h0 : b[b.length - 4]? = some 0
    · exact ⟨b.length, hunf0 h0, Nat.le_refl _⟩
    · obtain ⟨m, hm, hm2⟩ := fixendtapeLoop_le b b.length 16380 ((b.length - 4 : Nat) : Int)
        (by omega) (by omega)
      rw [hunf1 h0, hm, Option.map_some']
      rcases hm2 with h | h
      · exact ⟨b.length, by rw [h], Nat.le_refl _⟩
      · refine ⟨m.toNat, ?_, by omega⟩
        have : ((m.toNat : Nat) : Int) = m := by omega
        rw [this]

/-- C18 on a buffer of 0x4000 bytes of value 5: no zero byte, the length stays. -/
theorem fixendtape_zero_search_witness :
    ∃ n : Nat, fixendtape (List.replicate 0x4000 5) (List.replicate 0x4000 5).length =
      some (List.replicate 0x4000 5, (n : Int)) ∧ n ≤ (List.replicate 0x4000 5).length :=
  (fixendtape_zero_search (List.replicate 0x4000 5)
    (by rw [List.length_replicate])).2.2.2

/-! ## `fixendtape` on a buffer shorter than the search window -/

/-- Without a zero byte the backward loop runs below index 0 when it has more
iterations left than bytes below it: it reads `b[-1]`. -/
theorem fixendtapeLoop_underrun (b : List Nat) (len : Int) :
    ∀ (n : Nat) (i : Int), -1 ≤ i → i < b.length →
      (∀ (j : Nat) x, b[j]? = some x → x ≠ 0) → i + 1 < n →
      fixendtapeLoop b len n i = none ∧ (-1 : Int) ∈ fixendtapeLoopReads b n i := by
  intro n
  induction n with
  | zero => intro i _ _ _ h; omega
  | succ n ih =>
    intro i hi hib hnz hn
    by_cases hneg : i = -1
    · subst hneg
      have : readAt b (-1) = none := by simp [readAt]
      rw [fixendtapeLoop, fixendtapeLoopReads, this]
      exact ⟨rfl, List.mem_singleton_self _⟩
    · have hi0 : 0 ≤ i := by omega
      obtain ⟨m, rfl⟩ := Int.eq_ofNat_of_zero_le hi0
      have hx : b[m]? = some b[m] := List.getElem?_eq_getElem (by omega)
      have hx0 := hnz m _ hx
      obtain ⟨r1, r2⟩ := ih ((m : Int) - 1) (by omega) (by omega) hnz (by omega)
      rw [fixendtapeLoop, fixendtapeLoopReads, readAt_nat]
      simp only [hx, hx0, if_false]
      split
      · exact ⟨r1, List.mem_cons_of_mem _ r2⟩
      · exact ⟨r1, List.mem_cons_of_mem _ r2⟩

/-- C19 at a failing input: a buffer of 14000 bytes of value 0x20, the size of
a segment that passes the default block minimum. It has no zero byte;
`fixendtape` searches 0x4000 - 4 bytes back from `b[13996]` and reads `b[-1]`. -/
theorem fixendtape_reads_before_buffer :
    (4 : Int) ≤ ((List.replicate 14000 0x20).length : Int) ∧
    fixendtape (List.replicate 14000 0x20) (List.replicate 14000 0x20).length = none ∧
    (-1 : Int) ∈ fixendtapeReads (List.replicate 14000 0x20)
      (List.replicate 14000 0x20).length := by
  have hx : (List.replicate 14000 0x20)[13996]? = some 0x20 :=
    List.getElem?_replicate_of_lt (by omega)
  obtain ⟨r1, r2⟩ := fixendtapeLoop_underrun (List.replicate 14000 0x20) (14000 : Nat) 16380
    ((13996 : Nat) : Int) (by omega) (by rw [List.length_replicate]; omega)
    (fun j x h => replicate_get_ne 14000 j x 0x20 (by omega) h) (by omega)
  have hi : ((14000 : Nat) : Int) - 4 = ((13996 : Nat) : Int) := by omega
  have hn : (((13996 : Nat) : Int) - (((14000 : Nat) : Int) - 0x4000)).toNat = 16380 := by omega
  rw [List.length_replicate]
  refine ⟨by omega, ?_, ?_⟩
  · simp only [fixendtape]
    rw [hi, readAt_nat, hx, hn]
    simp only [show (0x20 : Nat) ≠ 0 by omega, ne_eq, not_false_eq_true, if_true, r1]
    rfl
  · simp only [fixendtapeReads]
    rw [hi, readAt_nat, hx, hn]
    simp only [show (0x20 : Nat) ≠ 0 by omega, ne_eq, not_false_eq_true, if_true]
    exact List.mem_cons_of_mem _ r2

end ITap
